import Mathlib

/-!
# KEA layer catalog for the ERDAS Imagine raster format plug-in

A shallow embedding of `trunk/ERDAS_Imagine/keafile.cpp`: the catalog built by
`keaFileTitleIdentifyAndOpen`, the enumeration `keaFileLayerNamesGet`, the rename
cascade `keaFileLayerNamesSet`, and the path decoding written out in
`keaFileDataRead` and `keaFileDataWrite`.

Conventions of the embedding:
* a `std::string` / NUL-terminated `char *` is the list of its characters;
* a libkea call that may raise `KEAIOException` returns an `Option`
  (`none` = the exception is raised);
* a pointer that may be `NULL` is an `Option`;
* in-place mutation of `pKEAFile` is explicit state passing;
* the string helpers of the host toolkit (`estr_Sprintf`, `estr_Duplicate`) and the
  allocations are taken to succeed, and a query that the source repeats with the same
  arguments is made once.
-/

namespace KEA

/-- Contents of a `std::string` or of a NUL-terminated `char *`. -/
abbrev Str := List Char

/-! ## Collaborator types (libkea, HDF5, ERDAS toolkit) -/

/-- The element types of libkea (`kealib::KEADataType`). -/
inductive KEADataType where
  | kea_undefined
  | kea_8int
  | kea_16int
  | kea_32int
  | kea_64int
  | kea_8uint
  | kea_16uint
  | kea_32uint
  | kea_64uint
  | kea_32float
  | kea_64float
deriving DecidableEq

/-- The fields of `kealib::KEAImageSpatialInfo` read by the plug-in. -/
structure KEAImageSpatialInfo where
  wktString : Str
  xSize : Nat
  ySize : Nat
deriving DecidableEq

/-- The container collaborator `kealib::KEAImageIO`, as the answers it gives to the
queries the plug-in makes. `none` stands for a raised `KEAIOException`.
`descriptionWritable nBand s` tells whether `setImageBandDescription(nBand, s)`
goes through (`true`) or raises (`false`). -/
structure KEAImageIO where
  getSpatialInfo : Option KEAImageSpatialInfo
  getNumOfImageBands : Option Nat
  getImageBandDataType : Nat → Option KEADataType
  getImageBandDescription : Nat → Option Str
  getImageBlockSize : Nat → Option Nat
  maskCreated : Nat → Option Bool
  getNumOfOverviews : Nat → Option Nat
  getOverviewSize : Nat → Nat → Option (Nat × Nat)
  getOverviewBlockSize : Nat → Nat → Option Nat
  descriptionWritable : Nat → Str → Bool

/-- The call `pImageIO->setImageBandDescription(nBand, s)`: on success the container
reports `s` as the description of `nBand` from then on; `none` when it raises. -/
def KEAImageIO.setImageBandDescription (io : KEAImageIO) (nBand : Nat) (s : Str) :
    Option KEAImageIO :=
  if io.descriptionWritable nBand s then
    some { io with
      getImageBandDescription := fun b =>
        if b = nBand then some s else io.getImageBandDescription b }
  else none

/-- An open HDF5 file handle (`H5::H5File *`). -/
structure H5File where
  handle : Nat
deriving DecidableEq

/-- The host's projection record (`Eprj_MapProjection *`). -/
structure Eprj_MapProjection where
  handle : Nat
deriving DecidableEq

/-- The open intent carried by the host's mode string `inFileMode`. -/
inductive FileMode where
  | create
  | readOnly
  | readWrite
deriving DecidableEq

/-- The host macro `EFIO_MODE_CREATE(mode) == EMSC_TRUE`. -/
def EFIO_MODE_CREATE : FileMode → Bool
  | .create => true
  | _ => false

/-- The host macro `EFIO_MODE_READONLY(mode)`. -/
def EFIO_MODE_READONLY : FileMode → Bool
  | .readOnly => true
  | _ => false

/-- What lies outside the plug-in at open time: the libkea entry points on a file
name, the projection translation of `keaproj`, and the `stat` call. -/
structure KEAEnv where
  isKEAImage : Str → Option Bool
  openKeaH5RDOnly : Str → Option H5File
  openKeaH5RW : Str → Option H5File
  openKEAImageHeader : H5File → Option KEAImageIO
  WKTToMapProj : Str → Option Eprj_MapProjection × Str × Str
  stat : Str → Option Int

/-! ## The plug-in records (`kea.h`) -/

/-- One layer descriptor (`KEA_Layer`), without the back pointer `pKEAFile`. -/
structure KEA_Layer where
  sName : Str
  nBand : Nat
  bIsOverview : Bool
  bIsMask : Bool
  bMaskIsReal : Bool
  nOverview : Nat
  eKEAType : KEADataType
  nXSize : Nat
  nYSize : Nat
  nBlockSize : Nat
deriving DecidableEq

/-- The session record (`KEA_File`). `bUpdate` is `none` where the source leaves it
unassigned. -/
structure KEA_File where
  pH5File : Option H5File
  pImageIO : Option KEAImageIO
  sFilePath : Str
  pProj : Option Eprj_MapProjection
  sProjName : Str
  sUnits : Str
  modTime : Int
  bUpdate : Option Bool
  aLayers : List KEA_Layer

/-! ## String helpers of the C and C++ libraries -/

/-- The call `std::replace(s.begin(), s.end(), a, b)`. -/
def replaceChar (a b : Char) (s : Str) : Str :=
  s.map (fun c => if c = a then b else c)

/-- The `%d` conversion of `estr_Sprintf` on an overview level: plain decimal
digits (levels are `o + 1` for a loop counter `o`, far below `2^31`). -/
def fmt_d (v : Nat) : Str := Nat.toDigits 10 v

/-- The call `strchr(s, c)`: offset of the first `c` in `s`, if any. -/
def strchr : Str → Char → Option Nat
  | [], _ => none
  | x :: xs, c =>
    if x = c then some 0
    else match strchr xs c with
      | some i => some (i + 1)
      | none => none

/-- The call `strrchr(s, c)`: offset of the last `c` in `s`, if any. -/
def strrchr : Str → Char → Option Nat
  | [], _ => none
  | x :: xs, c =>
    match strrchr xs c with
    | some i => some (i + 1)
    | none => if x = c then some 0 else none

/-- The test `name.compare(0, base.size(), base) == 0`: the first
`base.size()` characters of `name` (fewer when `name` is shorter) equal `base`. -/
def compare0 (name base : Str) : Bool :=
  decide (name.take base.length = base)

/-- The call `name.replace(0, n, s)`: the first `n` characters give way to `s`. -/
def replace0 (name : Str) (n : Nat) (s : Str) : Str :=
  s ++ name.drop n

/-! ## `IsSupportedDataType` and `getModifiedTime` -/

/-- Imagine does not support the 64 bit integer types. -/
def IsSupportedDataType ( pImageIO : KEAImageIO) (nBand : Nat) : Option Bool :=
  match pImageIO.getImageBandDataType nBand with
  | none => none
  | some type =>
    if type = KEADataType.kea_64int ∨ type = KEADataType.kea_64uint then some false
    else some true

/-- Modification time of the file, `0` when `stat` fails. -/
def getModifiedTime (env : KEAEnv) (fileName : Str) : Int :=
  match env.stat fileName with
  | some mtime => mtime
  | none => 0

/-! ## `keaFileTitleIdentifyAndOpen` -/

/-- The overview loop of open: for `o` in the given range, push the overview of level
`o + 1` and then its mask onto `aLayers`. -/
def openOverviews ( pImageIO : KEAImageIO) (nBand : Nat) (sName : Str)
    (eKEAType : KEADataType) : List Nat → List KEA_Layer → Option (List KEA_Layer)
  | [], aLayers => some aLayers
  | o :: os, aLayers =>
    let nOverview := o + 1
    match pImageIO.getOverviewSize nBand nOverview,
          pImageIO.getOverviewBlockSize nBand nOverview with
    | some size, some bs =>
      let pOverview : KEA_Layer :=
        { sName := sName ++ ":Overview_".toList ++ fmt_d nOverview
          nBand := nBand
          bIsOverview := true
          bIsMask := false
          bMaskIsReal := false
          nOverview := nOverview
          eKEAType := eKEAType
          nXSize := size.1
          nYSize := size.2
          nBlockSize := bs }
      let pOverviewMask : KEA_Layer :=
        { sName := sName ++ ":Overview_".toList ++ fmt_d nOverview ++ ":Mask".toList
          nBand := nBand
          bIsOverview := true
          bIsMask := true
          bMaskIsReal := false
          nOverview := nOverview
          eKEAType := KEADataType.kea_8uint
          nXSize := size.1
          nYSize := size.2
          nBlockSize := bs }
      openOverviews pImageIO nBand sName eKEAType os
        (aLayers ++ [pOverview] ++ [pOverviewMask])
    | _, _ => none

/-- The body of the band loop for a band of supported type: push the real layer, its
mask, and the overviews with their masks. -/
def openBand ( pImageIO : KEAImageIO) (pSpatialInfo : KEAImageSpatialInfo)
    (nBand : Nat) (aLayers : List KEA_Layer) : Option (List KEA_Layer) :=
  match pImageIO.getImageBandDescription nBand,
        pImageIO.getImageBandDataType nBand,
        pImageIO.getImageBlockSize nBand,
        pImageIO.maskCreated nBand,
        pImageIO.getNumOfOverviews nBand with
  | some desc, some type, some bs, some maskReal, some nOverViews =>
    -- Imagine doesn't like spaces
    let sName := replaceChar ' ' '_' desc
    let pLayer : KEA_Layer :=
      { sName := sName
        nBand := nBand
        bIsOverview := false
        bIsMask := false
        bMaskIsReal := false
        nOverview := 99999
        eKEAType := type
        nXSize := pSpatialInfo.xSize
        nYSize := pSpatialInfo.ySize
        nBlockSize := bs }
    let pMask : KEA_Layer :=
      { sName := sName ++ ":Mask".toList
        nBand := nBand
        bIsOverview := false
        bIsMask := true
        bMaskIsReal := maskReal
        nOverview := 99999
        eKEAType := KEADataType.kea_8uint
        nXSize := pSpatialInfo.xSize
        nYSize := pSpatialInfo.ySize
        nBlockSize := bs }
    openOverviews pImageIO nBand sName pLayer.eKEAType (List.range nOverViews)
      (aLayers ++ [pLayer] ++ [pMask])
  | _, _, _, _, _ => none

/-- The band loop of open: `n` runs over the given range, the band is `n + 1`; a band
of unsupported type is passed over. -/
def openBands ( pImageIO : KEAImageIO) (pSpatialInfo : KEAImageSpatialInfo) :
    List Nat → List KEA_Layer → Option (List KEA_Layer)
  | [], aLayers => some aLayers
  | n :: ns, aLayers =>
    let nBand := n + 1
    match IsSupportedDataType pImageIO nBand with
    | none => none
    | some false => openBands pImageIO pSpatialInfo ns aLayers
    | some true =>
      match openBand pImageIO pSpatialInfo nBand aLayers with
      | none => none
      | some aLayers' => openBands pImageIO pSpatialInfo ns aLayers'

/-- The `try` block of open; `none` when a `KEAIOException` is caught, in which case
the source deletes the session and returns `NULL`. -/
def openExisting (env : KEAEnv) (fileName : Str) (inFileMode : FileMode) :
    Option KEA_File :=
  match (if EFIO_MODE_READONLY inFileMode then env.openKeaH5RDOnly fileName
         else env.openKeaH5RW fileName) with
  | none => none
  | some pH5File =>
    match env.openKEAImageHeader pH5File with
    | none => none
    | some pImageIO =>
      match pImageIO.getSpatialInfo, pImageIO.getNumOfImageBands with
      | some pSpatialInfo, some nBands =>
        let proj := env.WKTToMapProj pSpatialInfo.wktString
        match openBands pImageIO pSpatialInfo (List.range nBands) [] with
        | none => none
        | some aLayers =>
          some
            { pH5File := some pH5File
              pImageIO := some pImageIO
              sFilePath := fileName
              pProj := proj.1
              sProjName := proj.2.1
              sUnits := proj.2.2
              modTime := getModifiedTime env fileName
              bUpdate := none
              aLayers := aLayers }
      | _, _ => none

/-- The session returned for create intent: nothing bound yet, no layers. -/
def createSession (fileName : Str) : KEA_File :=
  { pH5File := none
    pImageIO := none
    sFilePath := fileName
    pProj := none
    sProjName := []
    sUnits := []
    modTime := 0
    bUpdate := some true
    aLayers := [] }

/-- The function `keaFileTitleIdentifyAndOpen(fileName, fileType, inFileMode)`:
the returned handle (`none` = `NULL`) and the value left in `*fileType`. -/
def keaFileTitleIdentifyAndOpen (env : KEAEnv) (fileName : Str) (fileType : Int)
    (inFileMode : Option FileMode) : Option KEA_File × Int :=
  match inFileMode with
  | some mode =>
    if EFIO_MODE_CREATE mode then (some (createSession fileName), fileType)
    else
      match env.isKEAImage fileName with
      | some true => (openExisting env fileName mode, 0)
      | _ => (none, fileType)
  | none =>
    match env.isKEAImage fileName with
    | some true => (none, 0)
    | _ => (none, fileType)

/-! ## `keaFileLayerNamesGet` -/

/-- The out-parameters and return code of `keaFileLayerNamesGet`. -/
structure LayerNamesResult where
  rCode : Int
  count : Nat
  layerNames : Option (List Str)
deriving DecidableEq

/-- The first loop of `keaFileLayerNamesGet`: how many layers are neither overview
nor mask. -/
def countTopLevel : List KEA_Layer → Nat → Nat
  | [], layerCount => layerCount
  | pCandidate :: rest, layerCount =>
    if !pCandidate.bIsOverview && !pCandidate.bIsMask then
      countTopLevel rest (layerCount + 1)
    else countTopLevel rest layerCount

/-- The second loop of `keaFileLayerNamesGet`: the names of those layers, each
stored at the next free slot. -/
def collectTopLevel : List KEA_Layer → List Str → List Str
  | [], layerNames => layerNames
  | pCandidate :: rest, layerNames =>
    if !pCandidate.bIsOverview && !pCandidate.bIsMask then
      collectTopLevel rest (layerNames ++ [pCandidate.sName])
    else collectTopLevel rest layerNames

/-- The function `keaFileLayerNamesGet(fileHandle, count, layerNames)`; the session
is handed back as it is left by the call. -/
def keaFileLayerNamesGet (pKEAFile : KEA_File) : LayerNamesResult × KEA_File :=
  let layerCount := countTopLevel pKEAFile.aLayers 0
  if layerCount > 0 then
    ({ rCode := 0
       count := layerCount
       layerNames := some (collectTopLevel pKEAFile.aLayers []) }, pKEAFile)
  else
    ({ rCode := 0, count := 0, layerNames := none }, pKEAFile)

/-! ## `keaFileLayerNamesSet` -/

/-- The inner loop of `keaFileLayerNamesSet` for one entry `sOldName -> sNewName`,
over the layers in order. The state is the container behind `pImageIO`. The result is
`none` when `pKEAFile->pImageIO` is dereferenced while `NULL`. -/
def renameLayers (sOldName sNewName : Str) :
    Option KEAImageIO → List KEA_Layer → Option (Option KEAImageIO × List KEA_Layer)
  | pImageIO, [] => some ( pImageIO, [])
  | pImageIO, pLayer :: rest =>
    let sOldNameBase := sOldName ++ [':']
    if !pLayer.bIsOverview && !pLayer.bIsMask && decide (pLayer.sName = sOldName) then
      match pImageIO with
      | none => none
      | some io =>
        match io.setImageBandDescription pLayer.nBand sNewName with
        | some io' =>
          match renameLayers sOldName sNewName (some io') rest with
          | none => none
          | some (p, rest') => some (p, { pLayer with sName := sNewName } :: rest')
        | none =>
          -- the exception is caught inside the loop body, the name assignment is skipped
          match renameLayers sOldName sNewName (some io) rest with
          | none => none
          | some (p, rest') => some (p, pLayer :: rest')
    else if (pLayer.bIsOverview || pLayer.bIsMask)
        && compare0 pLayer.sName sOldNameBase then
      -- is an overview or mask attached to the layer to be renamed
      let sNewNameBase := sNewName ++ [':']
      match renameLayers sOldName sNewName pImageIO rest with
      | none => none
      | some (p, rest') =>
        some (p, { pLayer with
                   sName := replace0 pLayer.sName sOldNameBase.length sNewNameBase }
                 :: rest')
    else
      match renameLayers sOldName sNewName pImageIO rest with
      | none => none
      | some (p, rest') => some (p, pLayer :: rest')

/-- The outer loop of `keaFileLayerNamesSet` over the entries
`(oldLayerNames[oldN], newLayerNames[oldN])`, `oldN = 0 .. count - 1`. -/
def renameEntries :
    List (Str × Str) → Option KEAImageIO → List KEA_Layer →
      Option (Option KEAImageIO × List KEA_Layer)
  | [], pImageIO, aLayers => some ( pImageIO, aLayers)
  | (sOldName, sNewName) :: entries, pImageIO, aLayers =>
    match renameLayers sOldName sNewName pImageIO aLayers with
    | none => none
    | some ( pImageIO', aLayers') => renameEntries entries pImageIO' aLayers'

/-- The function `keaFileLayerNamesSet(fileHandle, count, oldLayerNames,
newLayerNames)` on two parallel arrays of `count` names: the return code and the
session after the call; `none` when the call dereferences a `NULL` `pImageIO`. -/
def keaFileLayerNamesSet (pKEAFile : KEA_File) (oldLayerNames newLayerNames : List Str) :
    Option (Int × KEA_File) :=
  match renameEntries (List.zip oldLayerNames newLayerNames)
      pKEAFile.pImageIO pKEAFile.aLayers with
  | none => none
  | some ( pImageIO, aLayers) =>
    some (0, { pKEAFile with pImageIO := pImageIO, aLayers := aLayers })

/-! ## The path decoding of `keaFileDataRead` and `keaFileDataWrite` -/

/-- The layer name that `keaFileDataRead` hands to `keaLayerOpen` for `dataName`, or
`none` when the path is not of the bin function form. -/
def keaFileDataRead_layerName (dataName : Str) : Option Str :=
  let pszNameCopy := dataName
  match strrchr pszNameCopy ':' with
  | none => none
  | some pszLastColon =>
    if pszNameCopy.drop (pszLastColon + 1) = "#Bin_Function#".toList then
      -- put a null there and look at the next one back
      let pszNameCopy := pszNameCopy.take pszLastColon
      match strrchr pszNameCopy ':' with
      | none => none
      | some pszLastColon =>
        if pszNameCopy.drop (pszLastColon + 1) = "Descriptor_Table".toList then
          -- now find the second colon
          match strchr (pszNameCopy.drop 1) ':' with
          | none => none
          | some pszSecondColon =>
            some ((pszNameCopy.drop 1).take pszSecondColon)
        else none
    else none

/-- The layer name that `keaFileDataWrite` hands to `keaLayerOpen` for `dataName`, or
`none` when the path is not of the bin function form. -/
def keaFileDataWrite_layerName (dataName : Str) : Option Str :=
  let pszNameCopy := dataName
  match strrchr pszNameCopy ':' with
  | none => none
  | some pszLastColon =>
    if pszNameCopy.drop (pszLastColon + 1) = "#Bin_Function#".toList then
      let pszNameCopy := pszNameCopy.take pszLastColon
      match strrchr pszNameCopy ':' with
      | none => none
      | some pszLastColon =>
        if pszNameCopy.drop (pszLastColon + 1) = "Descriptor_Table".toList then
          match strchr (pszNameCopy.drop 1) ':' with
          | none => none
          | some pszSecondColon =>
            some ((pszNameCopy.drop 1).take pszSecondColon)
        else none
    else none

/-! ## Closed forms used to state the properties of open -/

/-- The container handle that open binds for `fileName` in a non-create mode. -/
def openContainer (env : KEAEnv) (fileName : Str) (inFileMode : FileMode) :
    Option KEAImageIO :=
  match (if EFIO_MODE_READONLY inFileMode then env.openKeaH5RDOnly fileName
         else env.openKeaH5RW fileName) with
  | none => none
  | some pH5File => env.openKEAImageHeader pH5File

/-- Every query that open makes about band `b` is answered. -/
def BandQueriesSucceed (io : KEAImageIO) (b : Nat) : Prop :=
  (io.getImageBandDataType b).isSome ∧ (io.getImageBandDescription b).isSome ∧
  (io.getImageBlockSize b).isSome ∧ (io.maskCreated b).isSome ∧
  (io.getNumOfOverviews b).isSome ∧
  ∀ o, o < (io.getNumOfOverviews b).getD 0 →
    (io.getOverviewSize b (o + 1)).isSome ∧ (io.getOverviewBlockSize b (o + 1)).isSome

/-- Band `b` has one of the two 64 bit integer types. -/
def is64BitInt (io : KEAImageIO) (b : Nat) : Bool :=
  decide (io.getImageBandDataType b = some KEADataType.kea_64int) ||
  decide (io.getImageBandDataType b = some KEADataType.kea_64uint)

/-- Every query that open makes about the container is answered: the spatial
information, the band count, the element type of every band and, for the bands that
are not of a 64 bit integer type, the queries of the loop body. -/
def QueriesSucceed (io : KEAImageIO) : Prop :=
  io.getSpatialInfo.isSome ∧ io.getNumOfImageBands.isSome ∧
  ∀ n, n < io.getNumOfImageBands.getD 0 →
    (io.getImageBandDataType (n + 1)).isSome ∧
    (is64BitInt io (n + 1) = false → BandQueriesSucceed io (n + 1))

/-- Number of bands the container reports. -/
def bandCount (io : KEAImageIO) : Nat := io.getNumOfImageBands.getD 0

/-- Number of overviews the container reports for band `b`. -/
def overviewCount (io : KEAImageIO) (b : Nat) : Nat := (io.getNumOfOverviews b).getD 0

/-- The band indices `1 .. bandCount` of supported element type, ascending. -/
def supportedBands (io : KEAImageIO) : List Nat :=
  ((List.range (bandCount io)).map (· + 1)).filter (fun b => !is64BitInt io b)

/-- The description of band `b` with spaces turned into underscores. -/
def bandName (io : KEAImageIO) (b : Nat) : Str :=
  replaceChar ' ' '_' ((io.getImageBandDescription b).getD [])

/-- The real layer of band `b`. -/
def realLayer (io : KEAImageIO) (b : Nat) : KEA_Layer :=
  { sName := bandName io b
    nBand := b
    bIsOverview := false
    bIsMask := false
    bMaskIsReal := false
    nOverview := 99999
    eKEAType := (io.getImageBandDataType b).getD KEADataType.kea_undefined
    nXSize := (io.getSpatialInfo.map (·.xSize)).getD 0
    nYSize := (io.getSpatialInfo.map (·.ySize)).getD 0
    nBlockSize := (io.getImageBlockSize b).getD 0 }

/-- The mask layer of band `b`. -/
def maskLayer (io : KEAImageIO) (b : Nat) : KEA_Layer :=
  { sName := bandName io b ++ ":Mask".toList
    nBand := b
    bIsOverview := false
    bIsMask := true
    bMaskIsReal := (io.maskCreated b).getD false
    nOverview := 99999
    eKEAType := KEADataType.kea_8uint
    nXSize := (io.getSpatialInfo.map (·.xSize)).getD 0
    nYSize := (io.getSpatialInfo.map (·.ySize)).getD 0
    nBlockSize := (io.getImageBlockSize b).getD 0 }

/-- The overview layer of level `k` of band `b`. -/
def overviewLayer (io : KEAImageIO) (b k : Nat) : KEA_Layer :=
  { sName := bandName io b ++ ":Overview_".toList ++ fmt_d k
    nBand := b
    bIsOverview := true
    bIsMask := false
    bMaskIsReal := false
    nOverview := k
    eKEAType := (io.getImageBandDataType b).getD KEADataType.kea_undefined
    nXSize := ((io.getOverviewSize b k).getD (0, 0)).1
    nYSize := ((io.getOverviewSize b k).getD (0, 0)).2
    nBlockSize := (io.getOverviewBlockSize b k).getD 0 }

/-- The mask layer of the overview of level `k` of band `b`. -/
def overviewMaskLayer (io : KEAImageIO) (b k : Nat) : KEA_Layer :=
  { sName := bandName io b ++ ":Overview_".toList ++ fmt_d k ++ ":Mask".toList
    nBand := b
    bIsOverview := true
    bIsMask := true
    bMaskIsReal := false
    nOverview := k
    eKEAType := KEADataType.kea_8uint
    nXSize := ((io.getOverviewSize b k).getD (0, 0)).1
    nYSize := ((io.getOverviewSize b k).getD (0, 0)).2
    nBlockSize := (io.getOverviewBlockSize b k).getD 0 }

/-- The overview descriptors of band `b` for the loop counters `os`. -/
def overviewBlock (io : KEAImageIO) (b : Nat) (os : List Nat) : List KEA_Layer :=
  os.flatMap (fun o => [overviewLayer io b (o + 1), overviewMaskLayer io b (o + 1)])

/-- The descriptors of band `b` in discovery order. -/
def bandBlock (io : KEAImageIO) (b : Nat) : List KEA_Layer :=
  realLayer io b :: maskLayer io b :: overviewBlock io b (List.range (overviewCount io b))

/-- The catalog of a container: the blocks of its supported bands, ascending. -/
def catalog (io : KEAImageIO) : List KEA_Layer :=
  (supportedBands io).flatMap (bandBlock io)

/-- The four roles of a descriptor, as the specification names them. -/
inductive Role where
  | Real
  | Mask
  | Overview
  | OverviewMask
deriving DecidableEq

/-- The role that the two flags of a descriptor encode. -/
def KEA_Layer.role (L : KEA_Layer) : Role :=
  match L.bIsOverview, L.bIsMask with
  | false, false => Role.Real
  | false, true => Role.Mask
  | true, false => Role.Overview
  | true, true => Role.OverviewMask

/-- Band index, role and overview level of a descriptor. -/
def layerShape (L : KEA_Layer) : Nat × Role × Nat := (L.nBand, L.role, L.nOverview)

/-- The block `[Real, Mask, Overview 1, OverviewMask 1, ..., Overview M, OverviewMask M]`
of band `b`; a Real or Mask descriptor carries the level `99999`. -/
def blockShape (b M : Nat) : List (Nat × Role × Nat) :=
  (b, Role.Real, 99999) :: (b, Role.Mask, 99999) ::
    (List.range M).flatMap (fun o => [(b, Role.Overview, o + 1), (b, Role.OverviewMask, o + 1)])

/-- The descriptor is neither overview nor mask. -/
def isTopLevel (L : KEA_Layer) : Bool := !L.bIsOverview && !L.bIsMask

/-- A container of two bands: band 1 is 8 bit unsigned, described as `Band 1`, with a
stored mask and one overview; band 2 is 64 bit signed. -/
def sampleIO : KEAImageIO :=
  { getSpatialInfo := some { wktString := [], xSize := 512, ySize := 256 }
    getNumOfImageBands := some 2
    getImageBandDataType := fun b =>
      if b = 1 then some KEADataType.kea_8uint else some KEADataType.kea_64int
    getImageBandDescription := fun _ => some "Band 1".toList
    getImageBlockSize := fun _ => some 256
    maskCreated := fun _ => some true
    getNumOfOverviews := fun _ => some 1
    getOverviewSize := fun _ _ => some (256, 128)
    getOverviewBlockSize := fun _ _ => some 256
    descriptionWritable := fun _ _ => true }

/-- An environment in which every file is a KEA file holding the container `io`. -/
def envOf (io : KEAImageIO) : KEAEnv :=
  { isKEAImage := fun _ => some true
    openKeaH5RDOnly := fun _ => some { handle := 1 }
    openKeaH5RW := fun _ => some { handle := 1 }
    openKEAImageHeader := fun _ => some io
    WKTToMapProj := fun _ => (none, [], [])
    stat := fun _ => some 1700000000 }

/-- The session that open builds in `envOf io` for the file `a.kea`, read-only. -/
def sessionOf (io : KEAImageIO) : Option KEA_File :=
  (keaFileTitleIdentifyAndOpen (envOf io) "a.kea".toList 1 (some FileMode.readOnly)).1

/-- The session that open builds for `sampleIO`: the block of band 1 and nothing for
band 2. -/
def sampleSession : KEA_File :=
  { pH5File := some { handle := 1 }
    pImageIO := some sampleIO
    sFilePath := "a.kea".toList
    pProj := none
    sProjName := []
    sUnits := []
    modTime := 1700000000
    bUpdate := none
    aLayers :=
      [ { sName := "Band_1".toList, nBand := 1, bIsOverview := false, bIsMask := false,
          bMaskIsReal := false, nOverview := 99999, eKEAType := KEADataType.kea_8uint,
          nXSize := 512, nYSize := 256, nBlockSize := 256 },
        { sName := "Band_1:Mask".toList, nBand := 1, bIsOverview := false, bIsMask := true,
          bMaskIsReal := true, nOverview := 99999, eKEAType := KEADataType.kea_8uint,
          nXSize := 512, nYSize := 256, nBlockSize := 256 },
        { sName := "Band_1:Overview_1".toList, nBand := 1, bIsOverview := true,
          bIsMask := false, bMaskIsReal := false, nOverview := 1,
          eKEAType := KEADataType.kea_8uint, nXSize := 256, nYSize := 128,
          nBlockSize := 256 },
        { sName := "Band_1:Overview_1:Mask".toList, nBand := 1, bIsOverview := true,
          bIsMask := true, bMaskIsReal := false, nOverview := 1,
          eKEAType := KEADataType.kea_8uint, nXSize := 256, nYSize := 128,
          nBlockSize := 256 } ] }

/-- The container `sampleIO` when every description update raises. -/
def failingIO : KEAImageIO := { sampleIO with descriptionWritable := fun _ _ => false }

/-- The session that open builds for `failingIO`. -/
def failingSession : KEA_File := { sampleSession with pImageIO := some failingIO }

/-- A container of two 8 bit bands: band 1 is described as `A` and has one overview,
band 2 is described as `A:Mask` and has none. -/
def colonIO : KEAImageIO :=
  { sampleIO with
    getImageBandDataType := fun _ => some KEADataType.kea_8uint
    getImageBandDescription := fun b => if b = 1 then some "A".toList else some "A:Mask".toList
    getNumOfOverviews := fun b => if b = 1 then some 1 else some 0 }

/-- The session that open builds for `colonIO`. -/
def colonSession : KEA_File :=
  { sampleSession with pImageIO := some colonIO, aLayers := catalog colonIO }

/-- A container of two 8 bit bands without overviews, both described as `Band 1`. -/
def twinIO : KEAImageIO :=
  { sampleIO with
    getImageBandDataType := fun _ => some KEADataType.kea_8uint
    getNumOfOverviews := fun _ => some 0 }

/-- The session that open builds for `twinIO`. -/
def twinSession : KEA_File :=
  { sampleSession with pImageIO := some twinIO, aLayers := catalog twinIO }

/-- The session left by the single-entry call `old -> new` on `f` (`f` itself when the
call does not return). -/
def afterRename (f : KEA_File) (old new : Str) : KEA_File :=
  match keaFileLayerNamesSet f [old] [new] with
  | some r => r.2
  | none => f

/-! ## Closed forms used to state the properties of rename -/

/-- Whether the container behind `pImageIO` accepts `s` as description of band `b`. -/
def writable ( pImageIO : Option KEAImageIO) (b : Nat) (s : Str) : Bool :=
  match pImageIO with
  | some io => io.descriptionWritable b s
  | none => false

/-- What one pass of the rename loop for `sOldName -> sNewName` does to one layer,
given which container updates go through. -/
def renameLayer (w : Nat → Str → Bool) (sOldName sNewName : Str) (L : KEA_Layer) :
    KEA_Layer :=
  if isTopLevel L && decide (L.sName = sOldName) then
    if w L.nBand sNewName then { L with sName := sNewName } else L
  else if (L.bIsOverview || L.bIsMask) && compare0 L.sName (sOldName ++ [':']) then
    { L with sName := replace0 L.sName (sOldName ++ [':']).length (sNewName ++ [':']) }
  else L

/-- The single-entry renames applied one call at a time, in list order. -/
def renameOneByOne : KEA_File → List Str → List Str → Option (Int × KEA_File)
  | f, o :: os, n :: ns =>
    match keaFileLayerNamesSet f [o] [n] with
    | none => none
    | some (_, f') => renameOneByOne f' os ns
  | f, _, _ => some (0, f)

/-- Modelled from the spec: the name resolution of `keaLayerOpen` (in `kealayer.cpp`),
an exact match of `name` against the current name of any descriptor. -/
def resolve (f : KEA_File) (name : Str) : Option KEA_Layer :=
  f.aLayers.find? (fun L => decide (L.sName = name))

/-- The names of all descriptors of a session, in catalog order. -/
def layerNames (f : KEA_File) : List Str := f.aLayers.map (·.sName)

/-- The name `new` is fresh in `f`: no descriptor is named `new` and no descriptor has
a name starting with `new:`. -/
def Fresh (f : KEA_File) (new : Str) : Prop :=
  ∀ L ∈ f.aLayers, L.sName ≠ new ∧ ¬ (new ++ [':']) <+: L.sName

/-- Every new name of a batch is fresh in the session its entry meets. -/
def FreshBatch : KEA_File → List Str → List Str → Prop
  | f, o :: os, n :: ns =>
    Fresh f n ∧ ∀ (rc : Int) (f' : KEA_File),
      keaFileLayerNamesSet f [o] [n] = some (rc, f') → FreshBatch f' os ns
  | _, _, _ => True

/-- The sessions reached from open on the container `io` (read or read-write mode) by
calls of `keaFileLayerNamesSet` whose new names are fresh. -/
inductive ReachableFresh (io : KEAImageIO) : KEA_File → Prop where
  | opened (env : KEAEnv) (fileName : Str) (fileType : Int) (mode : FileMode)
      (f : KEA_File) :
      EFIO_MODE_CREATE mode = false → openContainer env fileName mode = some io →
      (keaFileTitleIdentifyAndOpen env fileName fileType (some mode)).1 = some f →
      ReachableFresh io f
  | renamed (f : KEA_File) (olds news : List Str) (rc : Int) (f' : KEA_File) :
      ReachableFresh io f → olds.length = news.length → FreshBatch f olds news →
      keaFileLayerNamesSet f olds news = some (rc, f') → ReachableFresh io f'

/-- The sessions reached from open on the container `io` (read or read-write mode) by
any calls of `keaFileLayerNamesSet`. -/
inductive Reachable (io : KEAImageIO) : KEA_File → Prop where
  | opened (env : KEAEnv) (fileName : Str) (fileType : Int) (mode : FileMode)
      (f : KEA_File) :
      EFIO_MODE_CREATE mode = false → openContainer env fileName mode = some io →
      (keaFileTitleIdentifyAndOpen env fileName fileType (some mode)).1 = some f →
      Reachable io f
  | renamed (f : KEA_File) (olds news : List Str) (rc : Int) (f' : KEA_File) :
      Reachable io f → olds.length = news.length →
      keaFileLayerNamesSet f olds news = some (rc, f') → Reachable io f'

/-- Value of a decimal digit character. -/
def digitVal (c : Char) : Nat := c.toNat - 48

/-- Value of a string of decimal digits read after the value `acc`. -/
def decodeDigits (acc : Nat) (cs : Str) : Nat :=
  cs.foldl (fun a c => 10 * a + digitVal c) acc

/-- The container `sampleIO` when the block size query of an overview raises. -/
def brokenOverviewIO : KEAImageIO := { sampleIO with getOverviewBlockSize := fun _ _ => none }

/-- The container `sampleIO` when the mask query raises. -/
def noMaskQueryIO : KEAImageIO := { sampleIO with maskCreated := fun _ => none }

/-- A descriptor with its name blanked: everything of it but the name. -/
def withoutName (L : KEA_Layer) : KEA_Layer := { L with sName := [] }

/-- The Mask descriptor of band 1 of `sampleIO` once `Band_1` has been renamed to `B`. -/
def renamedMask : KEA_Layer := { maskLayer sampleIO 1 with sName := "B:Mask".toList }

/-- The sessions `f` and `f'` agree on everything that `keaFileLayerNamesSet` leaves
alone: the descriptors apart from their names, in number and order, and the fields of
the session other than the container and the descriptors. -/
def SameButNames (f f' : KEA_File) : Prop :=
  f'.aLayers.map withoutName = f.aLayers.map withoutName ∧
  f'.pH5File = f.pH5File ∧ f'.sFilePath = f.sFilePath ∧ f'.pProj = f.pProj ∧
  f'.sProjName = f.sProjName ∧ f'.sUnits = f.sUnits ∧ f'.modTime = f.modTime ∧
  f'.bUpdate = f.bUpdate

/-- The Real descriptor of band 1 of `sampleIO` once `Band_1` has been renamed to `B`. -/
def renamedReal : KEA_Layer := { realLayer sampleIO 1 with sName := "B".toList }

/-! ## `keaFileDataRead` and `keaFileDataWrite` -/

/-- The host's histogram bin function record (`Edsc_BinFunction`). -/
structure Edsc_BinFunction where
  contents : List Nat
deriving DecidableEq

/-- The host's intermediate form of a record: the object and its design
(`EMIF_CADDR *` with `Emif_Design *`). -/
structure MIFable where
  object : List Nat
  design : Str
deriving DecidableEq

/-- What `emif_MIFableObjectConvertToMIF` hands back: the blob, its size, the dictionary
and the type tag. -/
structure MIFBlob where
  object : Option (List Nat)
  size : Nat
  dictionary : Option Str
  type : Option Str
deriving DecidableEq

/-- The conversions of the host toolkit used by the two functions. A result `none`
(`false` for `emif_ObjectFree`) means the call left an error report in `err`. -/
structure HostToolkit where
  edsc_BinFunctionConvertToMIFable : Edsc_BinFunction → Option MIFable
  emif_MIFableObjectConvertToMIF : MIFable → Option MIFBlob
  emif_MIFableObjectConvertFromMIF :
    Option (List Nat) → Option Str → Option Str → Option MIFable
  edsc_BinFunctionConvertFromMIFable : MIFable → Option Edsc_BinFunction
  emif_ObjectFree : MIFable → Bool

/-- The bin functions held for the layers of a session. -/
abbrev BinFunctionStore := KEA_Layer → Option Edsc_BinFunction

/-- The functions of `kealayer.cpp` that the two functions call, taken as given:
`keaLayerOpen` (`none` = a non-zero return), `keaLayerGetHistoBinFunction` (`none` =
`NULL`) and `keaLayerSetHistoBinFunction`. -/
structure LayerModule where
  keaLayerOpen : KEA_File → Str → Option KEA_Layer
  keaLayerGetHistoBinFunction : BinFunctionStore → KEA_Layer → Option Edsc_BinFunction
  keaLayerSetHistoBinFunction :
    BinFunctionStore → KEA_Layer → Edsc_BinFunction → BinFunctionStore

/-- Modelled from the spec: the macro `HANDLE_ERR(err, ret)` of `kea.h`. When the host
call before it left an error report (`none`), the enclosing function returns `ret` at
once, so that a failed conversion is reported as failure; otherwise it goes on. -/
def HANDLE_ERR {α β : Type} (r : Option α) (ret : β) (k : α → β) : β :=
  match r with
  | none => ret
  | some a => k a

/-- The return code and the out-parameters of `keaFileDataRead`. -/
structure DataReadResult where
  rCode : Int
  MIFDataObject : Option (List Nat)
  MIFDataSize : Nat
  MIFDataDictionary : Option Str
  MIFDataType : Option Str
deriving DecidableEq

/-- The out-parameters as `keaFileDataRead` initialises them, with return code
`rCode`. -/
def emptyRead (rCode : Int) : DataReadResult :=
  { rCode := rCode
    MIFDataObject := none
    MIFDataSize := 0
    MIFDataDictionary := none
    MIFDataType := none }

/-- The function `keaFileDataRead(fileHandle, dataName, MIFDataObject, MIFDataSize,
MIFDataDictionary, MIFDataType)`. -/
def keaFileDataRead (tk : HostToolkit) (lm : LayerModule) (store : BinFunctionStore)
    (fileHandle : KEA_File) (dataName : Str) : DataReadResult :=
  -- always need to succeed or Imagine will not display
  match keaFileDataRead_layerName dataName with
  | none => emptyRead 0
  | some pszLayerName =>
    match lm.keaLayerOpen fileHandle pszLayerName with
    | none => emptyRead 0
    | some pKEALayer =>
      match lm.keaLayerGetHistoBinFunction store pKEALayer with
      | none => emptyRead 0
      | some pBinFn =>
        HANDLE_ERR (tk.edsc_BinFunctionConvertToMIFable pBinFn) (emptyRead (-1))
          fun pMIFableObject =>
        HANDLE_ERR (tk.emif_MIFableObjectConvertToMIF pMIFableObject) (emptyRead (-1))
          fun mif =>
        HANDLE_ERR (if tk.emif_ObjectFree pMIFableObject then some () else none)
          { rCode := -1
            MIFDataObject := mif.object
            MIFDataSize := mif.size
            MIFDataDictionary := mif.dictionary
            MIFDataType := mif.type }
          fun _ =>
        { rCode := 0
          MIFDataObject := mif.object
          MIFDataSize := mif.size
          MIFDataDictionary := mif.dictionary
          MIFDataType := mif.type }

/-- The function `keaFileDataWrite(fileHandle, dataName, MIFDataObject, MIFDataSize,
MIFDataDictionary, MIFDataType)`: the return code and the bin functions held after the
call. -/
def keaFileDataWrite (tk : HostToolkit) (lm : LayerModule) (store : BinFunctionStore)
    (fileHandle : KEA_File) (dataName : Str) (MIFDataObject : Option (List Nat))
    (MIFDataSize : Nat) (MIFDataDictionary MIFDataType : Option Str) :
    Int × BinFunctionStore :=
  match keaFileDataWrite_layerName dataName with
  | none => (-1, store)
  | some pszLayerName =>
    match lm.keaLayerOpen fileHandle pszLayerName with
    | none => (-1, store)
    | some pKEALayer =>
      -- convert from MIF to bin function structure
      HANDLE_ERR
        (tk.emif_MIFableObjectConvertFromMIF MIFDataObject MIFDataDictionary MIFDataType)
        (-1, store) fun pBinObject =>
      HANDLE_ERR (tk.edsc_BinFunctionConvertFromMIFable pBinObject) (-1, store)
        fun pBinFn =>
      -- set the data
      let store' := lm.keaLayerSetHistoBinFunction store pKEALayer pBinFn
      HANDLE_ERR (if tk.emif_ObjectFree pBinObject then some () else none) (-1, store')
        fun _ => (0, store')

/-- Modelled from the spec: the functions of `kealayer.cpp` as the specification
describes them. The layer name is resolved by exact match, the bin function is fetched
from what is held for the resolved layer, and a written one is held against it. -/
def specLayerModule : LayerModule :=
  { keaLayerOpen := resolve
    keaLayerGetHistoBinFunction := fun store L => store L
    keaLayerSetHistoBinFunction := fun store L fn =>
      fun L' => if L' = L then some fn else store L' }

/-- A host toolkit whose conversions all go through. -/
def sampleToolkit : HostToolkit :=
  { edsc_BinFunctionConvertToMIFable := fun fn =>
      some { object := fn.contents, design := "BinFunction".toList }
    emif_MIFableObjectConvertToMIF := fun m =>
      some { object := some m.object, size := m.object.length
             dictionary := some m.design, type := some "Edsc_BinFunction".toList }
    emif_MIFableObjectConvertFromMIF := fun obj dict _ =>
      some { object := obj.getD [], design := dict.getD [] }
    edsc_BinFunctionConvertFromMIFable := fun m => some { contents := m.object }
    emif_ObjectFree := fun _ => true }

/-- The toolkit `sampleToolkit` when releasing the intermediate object reports an
error. -/
def leakyToolkit : HostToolkit := { sampleToolkit with emif_ObjectFree := fun _ => false }

/-- No bin function is held for any layer. -/
def emptyStore : BinFunctionStore := fun _ => none

/-! ## The naming codec of the specification -/

/-- The decimal numeral of `k`. -/
def decimal (k : Nat) : Str := (Nat.repr k).toList

/-- The name the specification composes for a descriptor: spaces of the base name
become underscores, then Real gives `base`, Mask `base:Mask`, Overview
`base:Overview_<level>` and OverviewMask `base:Overview_<level>:Mask`. -/
def composeName (baseName : Str) (role : Role) (overviewLevel : Nat) : Str :=
  let base := baseName.map (fun c => if c = ' ' then '_' else c)
  match role with
  | Role.Real => base
  | Role.Mask => base ++ ":Mask".toList
  | Role.Overview => base ++ ":Overview_".toList ++ decimal overviewLevel
  | Role.OverviewMask => base ++ ":Overview_".toList ++ decimal overviewLevel ++ ":Mask".toList

/-- The two literal segments that end a bin function path, with their colons. -/
def binFunctionTail : Str := ":Descriptor_Table:#Bin_Function#".toList

/-! ## Name consistency -/

/-- What follows the band name in the name of a descriptor of the given role and
overview level: nothing for Real, `:Mask`, `:Overview_k` or `:Overview_k:Mask`. -/
def roleSuffix (role : Role) (k : Nat) : Str :=
  match role with
  | Role.Real => []
  | Role.Mask => ":Mask".toList
  | Role.Overview => ":Overview_".toList ++ decimal k
  | Role.OverviewMask => ":Overview_".toList ++ decimal k ++ ":Mask".toList

/-- The sessions reached from open on the container `io` (read or read-write mode) by
calls of `keaFileLayerNamesSet` whose old and new names hold no colon. -/
inductive ReachableNoColon (io : KEAImageIO) : KEA_File → Prop where
  | opened (env : KEAEnv) (fileName : Str) (fileType : Int) (mode : FileMode)
      (f : KEA_File) :
      EFIO_MODE_CREATE mode = false → openContainer env fileName mode = some io →
      (keaFileTitleIdentifyAndOpen env fileName fileType (some mode)).1 = some f →
      ReachableNoColon io f
  | renamed (f : KEA_File) (olds news : List Str) (rc : Int) (f' : KEA_File) :
      ReachableNoColon io f → olds.length = news.length →
      (∀ o ∈ olds, ':' ∉ o) → (∀ n ∈ news, ':' ∉ n) →
      keaFileLayerNamesSet f olds news = some (rc, f') → ReachableNoColon io f'

/-- Name consistency of a catalog: the names of Real descriptors hold no colon, and
each other descriptor has a Real descriptor of its band and is named by a colon-free
base, shared by every Real descriptor of its band, followed by its role suffix. -/
def NamesConsistent (ls : List KEA_Layer) : Prop :=
  (∀ R ∈ ls, isTopLevel R = true → ':' ∉ R.sName) ∧
  ∀ L ∈ ls, isTopLevel L = false →
    (∃ R ∈ ls, isTopLevel R = true ∧ R.nBand = L.nBand) ∧
    ∃ base, ':' ∉ base ∧ L.sName = base ++ roleSuffix L.role L.nOverview ∧
      ∀ R ∈ ls, isTopLevel R = true → R.nBand = L.nBand → R.sName = base

/-! ## Properties of open -/

theorem openOverviews_eq (io : KEAImageIO) (b : Nat) (os : List Nat)
    (h : ∀ o ∈ os, (io.getOverviewSize b (o + 1)).isSome ∧
      (io.getOverviewBlockSize b (o + 1)).isSome) (acc : List KEA_Layer) :
    openOverviews io b (bandName io b)
        ((io.getImageBandDataType b).getD KEADataType.kea_undefined) os acc
      = some (acc ++ overviewBlock io b os) := by
  induction os generalizing acc with
  | nil => simp [openOverviews, overviewBlock]
  | cons o os ih =>
    have ho := h o (List.mem_cons_self _ _)
    obtain ⟨sz, hsz⟩ := Option.isSome_iff_exists.mp ho.1
    obtain ⟨bs, hbs⟩ := Option.isSome_iff_exists.mp ho.2
    have ih' := ih (fun o' ho' => h o' (List.mem_cons_of_mem _ ho'))
    simp only [openOverviews, hsz, hbs, ih']
    simp [overviewBlock, overviewLayer, overviewMaskLayer, hsz, hbs]

theorem openBand_eq (io : KEAImageIO) (si : KEAImageSpatialInfo) (b : Nat)
    (hsi : io.getSpatialInfo = some si) (h : BandQueriesSucceed io b)
    (acc : List KEA_Layer) :
    openBand io si b acc = some (acc ++ bandBlock io b) := by
  obtain ⟨h1, h2, h3, h4, h5, h6⟩ := h
  obtain ⟨ty, hty⟩ := Option.isSome_iff_exists.mp h1
  obtain ⟨d, hd⟩ := Option.isSome_iff_exists.mp h2
  obtain ⟨bs, hbs⟩ := Option.isSome_iff_exists.mp h3
  obtain ⟨mr, hmr⟩ := Option.isSome_iff_exists.mp h4
  obtain ⟨M, hM⟩ := Option.isSome_iff_exists.mp h5
  have hov := openOverviews_eq io b (List.range M)
    (fun o ho => h6 o (by simpa [hM] using ho))
  simp only [hty, hd, Option.getD_some, bandName] at hov
  simp only [openBand, hty, hd, hbs, hmr, hM, hov]
  simp [bandBlock, realLayer, maskLayer, overviewCount, bandName, hty, hd, hbs, hmr, hM, hsi]

theorem IsSupportedDataType_eq (io : KEAImageIO) (b : Nat)
    (h : (io.getImageBandDataType b).isSome) :
    IsSupportedDataType io b = some (!is64BitInt io b) := by
  obtain ⟨ty, hty⟩ := Option.isSome_iff_exists.mp h
  cases ty <;> simp [IsSupportedDataType, is64BitInt, hty]

theorem openBands_eq (io : KEAImageIO) (si : KEAImageSpatialInfo)
    (hsi : io.getSpatialInfo = some si) (ns : List Nat)
    (h : ∀ n ∈ ns, (io.getImageBandDataType (n + 1)).isSome ∧
      (is64BitInt io (n + 1) = false → BandQueriesSucceed io (n + 1)))
    (acc : List KEA_Layer) :
    openBands io si ns acc
      = some (acc ++ ((ns.map (· + 1)).filter (fun b => !is64BitInt io b)).flatMap
          (bandBlock io)) := by
  induction ns generalizing acc with
  | nil => simp [openBands]
  | cons n ns ih =>
    have hn := h n (List.mem_cons_self _ _)
    have ih' := ih (fun n' hn' => h n' (List.mem_cons_of_mem _ hn'))
    have hs := IsSupportedDataType_eq io (n + 1) hn.1
    cases hb : is64BitInt io (n + 1) with
    | true =>
      simp only [hb, Bool.not_true] at hs
      simp [openBands, hs, ih', hb]
    | false =>
      simp only [hb, Bool.not_false] at hs
      simp [openBands, hs, openBand_eq io si (n + 1) hsi (hn.2 hb), ih', hb]

/-- With every query answered, open in a non-create mode returns a session bound to
the container whose descriptor collection is the closed form `catalog`. -/
theorem open_catalog (env : KEAEnv) (fileName : Str) (fileType : Int) (mode : FileMode)
    (io : KEAImageIO) (hmode : EFIO_MODE_CREATE mode = false)
    (hkea : env.isKEAImage fileName = some true)
    (hio : openContainer env fileName mode = some io) (hq : QueriesSucceed io) :
    ∃ f, (keaFileTitleIdentifyAndOpen env fileName fileType (some mode)).1 = some f ∧
      f.pImageIO = some io ∧ f.aLayers = catalog io := by
  obtain ⟨h1, h2, h3⟩ := hq
  obtain ⟨si, hsi⟩ := Option.isSome_iff_exists.mp h1
  obtain ⟨nb, hnb⟩ := Option.isSome_iff_exists.mp h2
  have hb := openBands_eq io si hsi (List.range nb)
    (fun n hn => h3 n (by simpa [hnb] using hn)) []
  unfold openContainer at hio
  cases hh : (if EFIO_MODE_READONLY mode then env.openKeaH5RDOnly fileName
      else env.openKeaH5RW fileName) with
  | none => simp [hh] at hio
  | some pH5 =>
    simp only [hh] at hio
    have hcat : [] ++ ((List.range nb).map (· + 1) |>.filter (fun b => !is64BitInt io b)).flatMap
        (bandBlock io) = catalog io := by
      simp [catalog, supportedBands, bandCount, hnb]
    rw [hcat] at hb
    have hex : openExisting env fileName mode = some
        { pH5File := some pH5
          pImageIO := some io
          sFilePath := fileName
          pProj := (env.WKTToMapProj si.wktString).1
          sProjName := (env.WKTToMapProj si.wktString).2.1
          sUnits := (env.WKTToMapProj si.wktString).2.2
          modTime := getModifiedTime env fileName
          bUpdate := none
          aLayers := catalog io } := by
      simp only [openExisting, hh, hio, hsi, hnb, hb]
    exact ⟨_, by simp only [keaFileTitleIdentifyAndOpen, hmode, hkea, hex]; rfl, rfl, rfl⟩

theorem mem_overviewBlock {io : KEAImageIO} {b : Nat} {os : List Nat} {L : KEA_Layer} :
    L ∈ overviewBlock io b os ↔
      ∃ o ∈ os, L = overviewLayer io b (o + 1) ∨ L = overviewMaskLayer io b (o + 1) := by
  simp [overviewBlock, List.mem_flatMap]

theorem mem_bandBlock {io : KEAImageIO} {b : Nat} {L : KEA_Layer} :
    L ∈ bandBlock io b ↔
      L = realLayer io b ∨ L = maskLayer io b ∨
      ∃ o, o < overviewCount io b ∧
        (L = overviewLayer io b (o + 1) ∨ L = overviewMaskLayer io b (o + 1)) := by
  simp [bandBlock, mem_overviewBlock]

theorem nBand_of_mem_bandBlock {io : KEAImageIO} {b : Nat} {L : KEA_Layer}
    (h : L ∈ bandBlock io b) : L.nBand = b := by
  rcases mem_bandBlock.mp h with h | h | ⟨o, _, h | h⟩ <;> subst h <;> rfl

theorem length_overviewBlock (io : KEAImageIO) (b : Nat) (os : List Nat) :
    (overviewBlock io b os).length = 2 * os.length := by
  induction os with
  | nil => rfl
  | cons o os ih =>
    simp only [overviewBlock, List.flatMap_cons, List.length_append, List.length_cons,
      List.length_nil] at ih ⊢
    omega

theorem length_bandBlock (io : KEAImageIO) (b : Nat) :
    (bandBlock io b).length = 2 * (1 + overviewCount io b) := by
  simp only [bandBlock, List.length_cons, length_overviewBlock, List.length_range]
  omega

theorem mem_supportedBands {io : KEAImageIO} {b : Nat} :
    b ∈ supportedBands io ↔ 1 ≤ b ∧ b ≤ bandCount io ∧ is64BitInt io b = false := by
  simp only [supportedBands, List.mem_filter, List.mem_map, List.mem_range,
    Bool.not_eq_true', ← and_assoc, and_congr_left_iff]
  intro _
  constructor
  · rintro ⟨n, hn, rfl⟩
    omega
  · rintro ⟨h1, h2⟩
    exact ⟨b - 1, by omega, by omega⟩

theorem nodup_supportedBands (io : KEAImageIO) : (supportedBands io).Nodup := by
  unfold supportedBands
  apply List.Nodup.filter
  exact (List.nodup_range _).map (fun a b h => Nat.succ_injective h)

theorem mem_catalog {io : KEAImageIO} {L : KEA_Layer} :
    L ∈ catalog io ↔ ∃ b ∈ supportedBands io, L ∈ bandBlock io b := by
  simp [catalog, List.mem_flatMap]

theorem countP_band_flatMap (io : KEAImageIO) (b : Nat) (bs : List Nat) (hnd : bs.Nodup) :
    (bs.flatMap (bandBlock io)).countP (fun L => decide (L.nBand = b))
      = if b ∈ bs then 2 * (1 + overviewCount io b) else 0 := by
  induction bs with
  | nil => simp
  | cons c cs ih =>
    rw [List.nodup_cons] at hnd
    rw [List.flatMap_cons, List.countP_append, ih hnd.2]
    by_cases hcb : c = b
    · subst hcb
      have hall : (bandBlock io c).countP (fun L => decide (L.nBand = c))
          = (bandBlock io c).length := by
        rw [List.countP_eq_length]
        intro L hL
        simpa using nBand_of_mem_bandBlock hL
      simp [hall, hnd.1, length_bandBlock]
    · have hnone : (bandBlock io c).countP (fun L => decide (L.nBand = b)) = 0 := by
        rw [List.countP_eq_zero]
        intro L hL
        have := nBand_of_mem_bandBlock hL
        simp [this, hcb]
      have hbc : ¬ b = c := fun h => hcb h.symm
      simp [hnone, hbc]

/-- Claim C1. With every container query answered, the catalog built by
`keaFileTitleIdentifyAndOpen` in read or read-write mode holds, for each band of
supported element type, exactly `2 * (1 + overviewCount)` descriptors carrying that
band index, and no descriptor carrying the index of a band of 64 bit integer type. -/
theorem open_descriptor_count_per_band (env : KEAEnv) (fileName : Str) (fileType : Int)
    (mode : FileMode) (io : KEAImageIO) (hmode : EFIO_MODE_CREATE mode = false)
    (hkea : env.isKEAImage fileName = some true)
    (hio : openContainer env fileName mode = some io) (hq : QueriesSucceed io) :
    ∃ f, (keaFileTitleIdentifyAndOpen env fileName fileType (some mode)).1 = some f ∧
      ∀ b, 1 ≤ b → b ≤ bandCount io →
        (is64BitInt io b = false →
          f.aLayers.countP (fun L => decide (L.nBand = b)) = 2 * (1 + overviewCount io b)) ∧
        (is64BitInt io b = true → ∀ L ∈ f.aLayers, L.nBand ≠ b) := by
  obtain ⟨f, hf, _, hcat⟩ := open_catalog env fileName fileType mode io hmode hkea hio hq
  refine ⟨f, hf, fun b hb1 hb2 => ⟨fun hs => ?_, fun hu L hL hLb => ?_⟩⟩
  · rw [hcat, catalog, countP_band_flatMap io b _ (nodup_supportedBands io),
      if_pos (mem_supportedBands.mpr ⟨hb1, hb2, hs⟩)]
  · rw [hcat] at hL
    obtain ⟨c, hc, hLc⟩ := mem_catalog.mp hL
    have := nBand_of_mem_bandBlock hLc
    rw [hLb] at this
    subst this
    have := (mem_supportedBands.mp hc).2.2
    simp [hu] at this

/-- Witness of claim C1 on the container `sampleIO`. -/
theorem open_descriptor_count_per_band_witness :
    ∃ f, (keaFileTitleIdentifyAndOpen (envOf sampleIO) "a.kea".toList 1
        (some FileMode.readOnly)).1 = some f ∧
      ∀ b, 1 ≤ b → b ≤ bandCount sampleIO →
        (is64BitInt sampleIO b = false →
          f.aLayers.countP (fun L => decide (L.nBand = b))
            = 2 * (1 + overviewCount sampleIO b)) ∧
        (is64BitInt sampleIO b = true → ∀ L ∈ f.aLayers, L.nBand ≠ b) :=
  open_descriptor_count_per_band (envOf sampleIO) "a.kea".toList 1 FileMode.readOnly
    sampleIO rfl rfl rfl (by unfold QueriesSucceed BandQueriesSucceed; decide)

theorem map_layerShape_bandBlock (io : KEAImageIO) (b : Nat) :
    (bandBlock io b).map layerShape = blockShape b (overviewCount io b) := by
  simp only [bandBlock, blockShape, overviewBlock, List.map_cons, List.map_flatMap]
  rfl

/-- Claim C2. With every container query answered, the descriptor collection built by
`keaFileTitleIdentifyAndOpen` is, band by band over the supported bands in ascending
index, the block Real, Mask, then for each level `1 .. M` the Overview followed by its
OverviewMask, with the flags and the level set accordingly, whatever the container
reports about a stored mask. -/
theorem open_block_order (env : KEAEnv) (fileName : Str) (fileType : Int)
    (mode : FileMode) (io : KEAImageIO) (hmode : EFIO_MODE_CREATE mode = false)
    (hkea : env.isKEAImage fileName = some true)
    (hio : openContainer env fileName mode = some io) (hq : QueriesSucceed io) :
    ∃ f, (keaFileTitleIdentifyAndOpen env fileName fileType (some mode)).1 = some f ∧
      f.aLayers.map layerShape
        = (supportedBands io).flatMap (fun b => blockShape b (overviewCount io b)) := by
  obtain ⟨f, hf, _, hcat⟩ := open_catalog env fileName fileType mode io hmode hkea hio hq
  refine ⟨f, hf, ?_⟩
  rw [hcat, catalog, List.map_flatMap]
  congr 1
  funext b
  exact map_layerShape_bandBlock io b

/-- Witness of claim C2 on the container `sampleIO`. -/
theorem open_block_order_witness :
    ∃ f, (keaFileTitleIdentifyAndOpen (envOf sampleIO) "a.kea".toList 1
        (some FileMode.readWrite)).1 = some f ∧
      f.aLayers.map layerShape
        = (supportedBands sampleIO).flatMap
            (fun b => blockShape b (overviewCount sampleIO b)) :=
  open_block_order (envOf sampleIO) "a.kea".toList 1 FileMode.readWrite
    sampleIO rfl rfl rfl (by unfold QueriesSucceed BandQueriesSucceed; decide)

/-! ### Open returns a session only when every query was answered -/

theorem openOverviews_some {io : KEAImageIO} {b : Nat} {sName : Str} {ty : KEADataType}
    {os : List Nat} {acc l : List KEA_Layer}
    (h : openOverviews io b sName ty os acc = some l) :
    ∀ o ∈ os, (io.getOverviewSize b (o + 1)).isSome ∧
      (io.getOverviewBlockSize b (o + 1)).isSome := by
  induction os generalizing acc with
  | nil => simp
  | cons o os ih =>
    unfold openOverviews at h
    cases hsz : io.getOverviewSize b (o + 1) with
    | none => simp [hsz] at h
    | some sz =>
      cases hbs : io.getOverviewBlockSize b (o + 1) with
      | none => simp [hsz, hbs] at h
      | some bs =>
        simp only [hsz, hbs] at h
        intro o' ho'
        rcases List.mem_cons.mp ho' with rfl | ho'
        · simp [hsz, hbs]
        · exact ih h o' ho'

theorem openBand_some {io : KEAImageIO} {si : KEAImageSpatialInfo} {b : Nat}
    {acc l : List KEA_Layer} (h : openBand io si b acc = some l) :
    BandQueriesSucceed io b := by
  unfold openBand at h
  cases hd : io.getImageBandDescription b with
  | none => simp [hd] at h
  | some d =>
    cases hty : io.getImageBandDataType b with
    | none => simp [hd, hty] at h
    | some ty =>
      cases hbs : io.getImageBlockSize b with
      | none => simp [hd, hty, hbs] at h
      | some bs =>
        cases hmr : io.maskCreated b with
        | none => simp [hd, hty, hbs, hmr] at h
        | some mr =>
          cases hM : io.getNumOfOverviews b with
          | none => simp [hd, hty, hbs, hmr, hM] at h
          | some M =>
            simp only [hd, hty, hbs, hmr, hM] at h
            have := openOverviews_some h
            refine ⟨by simp [hty], by simp [hd], by simp [hbs], by simp [hmr], by simp [hM], ?_⟩
            intro o ho
            exact this o (by simpa [hM] using ho)

theorem openBands_some {io : KEAImageIO} {si : KEAImageSpatialInfo} {ns : List Nat}
    {acc l : List KEA_Layer} (h : openBands io si ns acc = some l) :
    ∀ n ∈ ns, (io.getImageBandDataType (n + 1)).isSome ∧
      (is64BitInt io (n + 1) = false → BandQueriesSucceed io (n + 1)) := by
  induction ns generalizing acc with
  | nil => simp
  | cons n ns ih =>
    unfold openBands at h
    cases hty : io.getImageBandDataType (n + 1) with
    | none => simp [IsSupportedDataType, hty] at h
    | some ty =>
      have hs := IsSupportedDataType_eq io (n + 1) (by simp [hty])
      simp only [hs] at h
      cases hb : is64BitInt io (n + 1) with
      | true =>
        simp only [hb, Bool.not_true] at h
        intro n' hn'
        rcases List.mem_cons.mp hn' with rfl | hn'
        · simp [hty, hb]
        · exact ih h n' hn'
      | false =>
        simp only [hb, Bool.not_false] at h
        cases hob : openBand io si (n + 1) acc with
        | none => simp [hob] at h
        | some acc' =>
          simp only [hob] at h
          intro n' hn'
          rcases List.mem_cons.mp hn' with rfl | hn'
          · exact ⟨by simp [hty], fun _ => openBand_some hob⟩
          · exact ih h n' hn'

/-- A session returned by open in a non-create mode is bound to the container that the
environment opens, every query made was answered, and its descriptors are `catalog`. -/
theorem open_some_inv {env : KEAEnv} {fileName : Str} {fileType : Int} {mode : FileMode}
    {f : KEA_File} (hmode : EFIO_MODE_CREATE mode = false)
    (hopen : (keaFileTitleIdentifyAndOpen env fileName fileType (some mode)).1 = some f) :
    ∃ io, openContainer env fileName mode = some io ∧ QueriesSucceed io ∧
      f.pImageIO = some io ∧ f.aLayers = catalog io := by
  unfold keaFileTitleIdentifyAndOpen at hopen
  simp only [hmode] at hopen
  cases hkea : env.isKEAImage fileName with
  | none => simp [hkea] at hopen
  | some isKEA =>
    cases isKEA with
    | false => simp [hkea] at hopen
    | true =>
      simp only [hkea] at hopen
      have hex := hopen
      unfold openExisting at hex
      cases hh : (if EFIO_MODE_READONLY mode then env.openKeaH5RDOnly fileName
          else env.openKeaH5RW fileName) with
      | none => simp [hh] at hex
      | some pH5 =>
        cases hio : env.openKEAImageHeader pH5 with
        | none => simp [hh, hio] at hex
        | some io =>
          cases hsi : io.getSpatialInfo with
          | none => simp [hh, hio, hsi] at hex
          | some si =>
            cases hnb : io.getNumOfImageBands with
            | none => simp [hh, hio, hsi, hnb] at hex
            | some nb =>
              cases hob : openBands io si (List.range nb) [] with
              | none => simp [hh, hio, hsi, hnb, hob] at hex
              | some ls =>
                have hq : QueriesSucceed io :=
                  ⟨by simp [hsi], by simp [hnb], fun n hn =>
                    openBands_some hob n (by simpa [hnb] using hn)⟩
                have hcon : openContainer env fileName mode = some io := by
                  simp [openContainer, hh, hio]
                obtain ⟨f', hf', hio', hcat'⟩ :=
                  open_catalog env fileName fileType mode io hmode hkea hcon hq
                unfold keaFileTitleIdentifyAndOpen at hf'
                simp only [hmode, hkea] at hf'
                rw [hopen] at hf'
                cases hf'
                exact ⟨io, hcon, hq, hio', hcat'⟩

/-! ## Properties of `keaFileLayerNamesGet` -/

theorem countTopLevel_eq (ls : List KEA_Layer) (n : Nat) :
    countTopLevel ls n = n + (ls.filter isTopLevel).length := by
  induction ls generalizing n with
  | nil => simp [countTopLevel]
  | cons L ls ih =>
    unfold countTopLevel
    by_cases h : isTopLevel L = true
    · have h' : (!L.bIsOverview && !L.bIsMask) = true := h
      simp only [h', if_true, ih, List.filter_cons_of_pos h, List.length_cons]
      omega
    · have h' : ¬ ((!L.bIsOverview && !L.bIsMask) = true) := h
      simp [h', ih, List.filter_cons_of_neg h]

theorem collectTopLevel_eq (ls : List KEA_Layer) (acc : List Str) :
    collectTopLevel ls acc = acc ++ (ls.filter isTopLevel).map (·.sName) := by
  induction ls generalizing acc with
  | nil => simp [collectTopLevel]
  | cons L ls ih =>
    unfold collectTopLevel
    by_cases h : isTopLevel L = true
    · have h' : (!L.bIsOverview && !L.bIsMask) = true := h
      simp only [h', if_true, ih, List.filter_cons_of_pos h, List.map_cons,
        List.append_assoc, List.singleton_append]
    · have h' : ¬ ((!L.bIsOverview && !L.bIsMask) = true) := h
      simp [h', ih, List.filter_cons_of_neg h]

theorem filter_isTopLevel_overviewBlock (io : KEAImageIO) (b : Nat) (os : List Nat) :
    (overviewBlock io b os).filter isTopLevel = [] := by
  rw [List.filter_eq_nil_iff]
  intro L hL
  obtain ⟨o, _, h | h⟩ := mem_overviewBlock.mp hL <;> subst h <;>
    simp [isTopLevel, overviewLayer, overviewMaskLayer]

theorem filter_isTopLevel_bandBlock (io : KEAImageIO) (b : Nat) :
    (bandBlock io b).filter isTopLevel = [realLayer io b] := by
  have h1 : isTopLevel (realLayer io b) = true := rfl
  have h2 : ¬ isTopLevel (maskLayer io b) = true := by simp [isTopLevel, maskLayer]
  rw [bandBlock, List.filter_cons_of_pos h1, List.filter_cons_of_neg h2,
    filter_isTopLevel_overviewBlock]

theorem filter_isTopLevel_flatMap (io : KEAImageIO) (bs : List Nat) :
    (bs.flatMap (bandBlock io)).filter isTopLevel = bs.map (realLayer io) := by
  induction bs with
  | nil => rfl
  | cons b bs ih =>
    rw [List.flatMap_cons, List.filter_append, ih, filter_isTopLevel_bandBlock]
    rfl

theorem filter_isTopLevel_catalog (io : KEAImageIO) :
    (catalog io).filter isTopLevel = (supportedBands io).map (realLayer io) :=
  filter_isTopLevel_flatMap io _

/-- Claim C3. For every session `keaFileLayerNamesGet` returns status 0 and leaves the
session as it was; the count is the number of descriptors that are neither overview
nor mask, the name array is absent when there is none and otherwise holds exactly
their names in catalog order; a second call gives the same result; and for a session
built by open in read or read-write mode the count is the number of supported bands. -/
theorem layerNamesGet_top_level (f : KEA_File) :
    (keaFileLayerNamesGet f).1.rCode = 0 ∧
    (keaFileLayerNamesGet f).2 = f ∧
    (keaFileLayerNamesGet f).1.count = (f.aLayers.filter isTopLevel).length ∧
    (keaFileLayerNamesGet f).1.layerNames
      = (if f.aLayers.filter isTopLevel = [] then none
         else some ((f.aLayers.filter isTopLevel).map (·.sName))) ∧
    (keaFileLayerNamesGet (keaFileLayerNamesGet f).2).1 = (keaFileLayerNamesGet f).1 ∧
    (∀ (env : KEAEnv) (fileName : Str) (fileType : Int) (mode : FileMode)
        (io : KEAImageIO), EFIO_MODE_CREATE mode = false →
      openContainer env fileName mode = some io →
      (keaFileTitleIdentifyAndOpen env fileName fileType (some mode)).1 = some f →
      (keaFileLayerNamesGet f).1.count = (supportedBands io).length) := by
  have hcount : (keaFileLayerNamesGet f).1.count = (f.aLayers.filter isTopLevel).length := by
    unfold keaFileLayerNamesGet
    simp only [countTopLevel_eq, Nat.zero_add]
    split
    · rfl
    · simp only
      omega
  have hsame : (keaFileLayerNamesGet f).2 = f := by
    unfold keaFileLayerNamesGet
    simp only
    split <;> rfl
  refine ⟨?_, hsame, hcount, ?_, by rw [hsame], ?_⟩
  · unfold keaFileLayerNamesGet
    simp only
    split <;> rfl
  · unfold keaFileLayerNamesGet
    simp only [countTopLevel_eq, Nat.zero_add, collectTopLevel_eq, List.nil_append]
    by_cases hnil : f.aLayers.filter isTopLevel = []
    · simp [hnil]
    · have hpos : (f.aLayers.filter isTopLevel).length > 0 :=
        List.length_pos.mpr hnil
      simp [hnil, hpos]
  · intro env fileName fileType mode io hmode hio hopen
    obtain ⟨io', hio', _, _, hcat⟩ := open_some_inv hmode hopen
    rw [hio] at hio'
    cases hio'
    rw [hcount, hcat, filter_isTopLevel_catalog, List.length_map]

/-- Witness of claim C3: the session built by open for `sampleIO` lists one name. -/
theorem layerNamesGet_top_level_witness :
    (keaFileTitleIdentifyAndOpen (envOf sampleIO) "a.kea".toList 1
        (some FileMode.readOnly)).1 = some sampleSession ∧
    (keaFileLayerNamesGet sampleSession).1.count = (supportedBands sampleIO).length :=
  ⟨rfl, (layerNamesGet_top_level sampleSession).2.2.2.2.2 (envOf sampleIO) "a.kea".toList 1
    FileMode.readOnly sampleIO rfl rfl rfl⟩

/-! ## Properties of `keaFileLayerNamesSet` -/

theorem writable_setImageBandDescription {io io' : KEAImageIO} {b : Nat} {s : Str}
    (h : io.setImageBandDescription b s = some io') :
    io'.descriptionWritable = io.descriptionWritable := by
  unfold KEAImageIO.setImageBandDescription at h
  split at h
  · cases h
    rfl
  · cases h

theorem setImageBandDescription_eq_none {io : KEAImageIO} {b : Nat} {s : Str} :
    io.setImageBandDescription b s = none ↔ io.descriptionWritable b s = false := by
  unfold KEAImageIO.setImageBandDescription
  cases io.descriptionWritable b s <;> simp

/-- One pass of the rename loop, when it runs to its end, maps `renameLayer` over the
layers and leaves the container as writable as it was. -/
theorem renameLayers_spec (old new : Str) (ls : List KEA_Layer) :
    ∀ (p : Option KEAImageIO) (r : Option KEAImageIO × List KEA_Layer),
      renameLayers old new p ls = some r →
        r.2 = ls.map (renameLayer (writable p) old new) ∧ writable r.1 = writable p ∧
        r.1.isSome = p.isSome := by
  induction ls with
  | nil =>
    intro p r h
    simp only [renameLayers, Option.some.injEq] at h
    subst h
    simp
  | cons L ls ih =>
    intro p r h
    unfold renameLayers at h
    simp only at h
    by_cases hreal : (!L.bIsOverview && !L.bIsMask && decide (L.sName = old)) = true
    · have hreal' : (isTopLevel L && decide (L.sName = old)) = true := hreal
      simp only [hreal, ↓reduceIte] at h
      cases p with
      | none => simp at h
      | some io =>
        simp only at h
        cases hset : io.setImageBandDescription L.nBand new with
        | some io' =>
          simp only [hset] at h
          cases hrec : renameLayers old new (some io') ls with
          | none => simp [hrec] at h
          | some r' =>
            obtain ⟨p', rest'⟩ := r'
            simp only [hrec, Option.some.injEq] at h
            subst h
            obtain ⟨h1, h2, h3⟩ := ih _ _ hrec
            have hw : writable (some io') = writable (some io) := by
              funext b s
              simp [writable, writable_setImageBandDescription hset]
            have hwb : io.descriptionWritable L.nBand new = true := by
              by_contra hc
              rw [Bool.not_eq_true] at hc
              rw [setImageBandDescription_eq_none.mpr hc] at hset
              cases hset
            refine ⟨?_, by rw [h2, hw], by simpa using h3⟩
            simp only [List.map_cons, renameLayer, hreal', if_true, writable, hwb]
            simp only at h1
            rw [h1, hw]
        | none =>
          simp only [hset] at h
          cases hrec : renameLayers old new (some io) ls with
          | none => simp [hrec] at h
          | some r' =>
            obtain ⟨p', rest'⟩ := r'
            simp only [hrec, Option.some.injEq] at h
            subst h
            obtain ⟨h1, h2, h3⟩ := ih _ _ hrec
            have hwb := setImageBandDescription_eq_none.mp hset
            refine ⟨?_, h2, h3⟩
            simp only [List.map_cons, renameLayer, hreal', if_true, writable, hwb]
            simp only at h1
            rw [h1]
            simp
    · have hreal' : ¬ (isTopLevel L && decide (L.sName = old)) = true := hreal
      simp only [hreal, Bool.false_eq_true, ↓reduceIte] at h
      by_cases hdep : ((L.bIsOverview || L.bIsMask) && compare0 L.sName (old ++ [':'])) = true
      · simp only [hdep, ↓reduceIte] at h
        cases hrec : renameLayers old new p ls with
        | none => simp [hrec] at h
        | some r' =>
          obtain ⟨p', rest'⟩ := r'
          simp only [hrec, Option.some.injEq] at h
          subst h
          obtain ⟨h1, h2, h3⟩ := ih _ _ hrec
          refine ⟨?_, h2, h3⟩
          simp only [List.map_cons, renameLayer, hreal', hdep, Bool.false_eq_true, ↓reduceIte]
          simp only at h1
          rw [h1]
      · simp only [hdep, Bool.false_eq_true, ↓reduceIte] at h
        cases hrec : renameLayers old new p ls with
        | none => simp [hrec] at h
        | some r' =>
          obtain ⟨p', rest'⟩ := r'
          simp only [hrec, Option.some.injEq] at h
          subst h
          obtain ⟨h1, h2, h3⟩ := ih _ _ hrec
          refine ⟨?_, h2, h3⟩
          simp only [List.map_cons, renameLayer, hreal', hdep, Bool.false_eq_true, ↓reduceIte]
          simp only at h1
          rw [h1]

/-- With a container bound, one pass of the rename loop runs to its end. -/
theorem renameLayers_isSome (old new : Str) (ls : List KEA_Layer) :
    ∀ io : KEAImageIO, (renameLayers old new (some io) ls).isSome = true := by
  induction ls with
  | nil => intro io; rfl
  | cons L ls ih =>
    intro io
    unfold renameLayers
    simp only
    split
    · cases hset : io.setImageBandDescription L.nBand new with
      | some io' =>
        obtain ⟨r, hr⟩ := Option.isSome_iff_exists.mp (ih io')
        simp [hr]
      | none =>
        obtain ⟨r, hr⟩ := Option.isSome_iff_exists.mp (ih io)
        simp [hr]
    · obtain ⟨r, hr⟩ := Option.isSome_iff_exists.mp (ih io)
      split <;> simp [hr]

/-- Without a layer that is neither overview nor mask and named `old`, one pass of
the rename loop never touches the container. -/
theorem renameLayers_no_top (old new : Str) (p : Option KEAImageIO) (ls : List KEA_Layer)
    (h : ∀ L ∈ ls, ¬ (isTopLevel L = true ∧ L.sName = old)) :
    ∃ ls', renameLayers old new p ls = some (p, ls') := by
  induction ls with
  | nil => exact ⟨[], rfl⟩
  | cons L ls ih =>
    obtain ⟨ls', hls'⟩ := ih (fun L' hL' => h L' (List.mem_cons_of_mem _ hL'))
    have hL := h L (List.mem_cons_self _ _)
    have hreal : ¬ (!L.bIsOverview && !L.bIsMask && decide (L.sName = old)) = true := by
      intro hc
      apply hL
      simpa [isTopLevel] using hc
    unfold renameLayers
    simp only [hreal, Bool.false_eq_true, ↓reduceIte, hls']
    split <;> exact ⟨_, rfl⟩

theorem namesSet_single_eq (f : KEA_File) (old new : Str) :
    keaFileLayerNamesSet f [old] [new]
      = match renameLayers old new f.pImageIO f.aLayers with
        | none => none
        | some (p, ls) => some (0, { f with pImageIO := p, aLayers := ls }) := by
  unfold keaFileLayerNamesSet
  simp only [List.zip_cons_cons, List.zip_nil_right, renameEntries]
  cases renameLayers old new f.pImageIO f.aLayers with
  | none => rfl
  | some r => rfl

/-- What a single-entry call of `keaFileLayerNamesSet` that returns has done. -/
theorem namesSet_single_spec {f f' : KEA_File} {old new : Str} {rc : Int}
    (h : keaFileLayerNamesSet f [old] [new] = some (rc, f')) :
    rc = 0 ∧ f'.aLayers = f.aLayers.map (renameLayer (writable f.pImageIO) old new) ∧
      writable f'.pImageIO = writable f.pImageIO ∧
      f'.pImageIO.isSome = f.pImageIO.isSome := by
  rw [namesSet_single_eq] at h
  cases hr : renameLayers old new f.pImageIO f.aLayers with
  | none => simp [hr] at h
  | some r =>
    obtain ⟨p, ls⟩ := r
    simp only [hr, Option.some.injEq, Prod.mk.injEq] at h
    obtain ⟨h0, hf⟩ := h
    obtain ⟨h1, h2, h3⟩ := renameLayers_spec old new f.aLayers f.pImageIO _ hr
    subst hf
    exact ⟨h0.symm, h1, h2, h3⟩

/-- With a container bound, a single-entry call returns, with status 0. -/
theorem namesSet_single_total (f : KEA_File) (old new : Str)
    (hio : f.pImageIO.isSome = true) :
    ∃ f', keaFileLayerNamesSet f [old] [new] = some (0, f') := by
  obtain ⟨io, hio⟩ := Option.isSome_iff_exists.mp hio
  rw [namesSet_single_eq, hio]
  obtain ⟨r, hr⟩ := Option.isSome_iff_exists.mp (renameLayers_isSome old new f.aLayers io)
  obtain ⟨p, ls⟩ := r
  rw [hr]
  exact ⟨_, rfl⟩

theorem isTopLevel_eq_false_iff (L : KEA_Layer) :
    isTopLevel L = false ↔ (L.bIsOverview || L.bIsMask) = true := by
  cases h1 : L.bIsOverview <;> cases h2 : L.bIsMask <;> simp [isTopLevel, h1, h2]

theorem compare0_iff (name base : Str) : compare0 name base = true ↔ base <+: name := by
  simp only [compare0, decide_eq_true_eq, List.prefix_iff_eq_take]
  exact eq_comm

/-- The rename pass on a mask or overview layer: a name `old:rest` becomes `new:rest`,
any other name stays. -/
theorem renameLayer_dependent (w : Nat → Str → Bool) (old new : Str) (L : KEA_Layer)
    (hdep : (L.bIsOverview || L.bIsMask) = true) :
    (∀ rest, L.sName = old ++ ':' :: rest →
      (renameLayer w old new L).sName = new ++ ':' :: rest) ∧
    (¬ (old ++ [':']) <+: L.sName → renameLayer w old new L = L) := by
  have htop : isTopLevel L = false := (isTopLevel_eq_false_iff L).mpr hdep
  constructor
  · intro rest hname
    have hc : compare0 L.sName (old ++ [':']) = true := by
      rw [compare0_iff, hname]
      exact ⟨rest, by simp⟩
    simp only [renameLayer, htop, Bool.false_and, Bool.false_eq_true, ↓reduceIte, hdep, hc,
      Bool.and_self, replace0]
    rw [hname]
    simp
  · intro hnp
    have hc : compare0 L.sName (old ++ [':']) = false := by
      rw [← Bool.not_eq_true, compare0_iff]
      exact hnp
    simp [renameLayer, htop, hc]

/-- Claim C5. For every session and every single rename `old -> new` done by
`keaFileLayerNamesSet`: the call returns when a container is bound, and when it returns
the catalog keeps its length, each Mask, Overview or OverviewMask descriptor that was
named `old:rest` is named `new:rest`, and each such descriptor whose name does not start
with `old:` keeps its name. -/
theorem rename_cascades_to_dependents (f : KEA_File) (old new : Str) :
    (f.pImageIO.isSome = true → ∃ f', keaFileLayerNamesSet f [old] [new] = some (0, f')) ∧
    ∀ (rc : Int) (f' : KEA_File), keaFileLayerNamesSet f [old] [new] = some (rc, f') →
      f'.aLayers.length = f.aLayers.length ∧
      ∀ (i : Nat) (L L' : KEA_Layer), f.aLayers[i]? = some L → f'.aLayers[i]? = some L' →
        (L.bIsOverview || L.bIsMask) = true →
          (∀ rest, L.sName = old ++ ':' :: rest → L'.sName = new ++ ':' :: rest) ∧
          (¬ (old ++ [':']) <+: L.sName → L'.sName = L.sName) := by
  refine ⟨namesSet_single_total f old new, fun rc f' h => ?_⟩
  obtain ⟨_, hls, _, _⟩ := namesSet_single_spec h
  refine ⟨by rw [hls, List.length_map], fun i L L' hL hL' hdep => ?_⟩
  rw [hls, List.getElem?_map, hL] at hL'
  simp only [Option.map_some', Option.some.injEq] at hL'
  subst hL'
  obtain ⟨h1, h2⟩ := renameLayer_dependent (writable f.pImageIO) old new L hdep
  exact ⟨h1, fun hnp => by rw [h2 hnp]⟩

/-- Witness of claim C5: renaming `Band_1` to `B` in the session of `sampleIO` turns
the mask name `Band_1:Mask` into `B:Mask`. -/
theorem rename_cascades_to_dependents_witness :
    ∃ f', keaFileLayerNamesSet sampleSession ["Band_1".toList] ["B".toList] = some (0, f') ∧
      (f'.aLayers[1]?).map (·.sName) = some "B:Mask".toList := by
  obtain ⟨h1, h2⟩ := rename_cascades_to_dependents sampleSession "Band_1".toList "B".toList
  obtain ⟨f', hf'⟩ := h1 rfl
  refine ⟨f', hf', ?_⟩
  obtain ⟨hlen, hall⟩ := h2 0 f' hf'
  have hlt : 1 < f'.aLayers.length := by rw [hlen]; decide
  have hget : f'.aLayers[1]? = some f'.aLayers[1] := List.getElem?_eq_getElem hlt
  have hname := (hall 1 _ _ (by rfl) hget (by rfl)).1 "Mask".toList (by rfl)
  rw [hget]
  simp only [Option.map_some', hname]
  rfl

/-- Claim C6, counterexample. In the session of `failingIO`, where the container update
raises, renaming `Band_1` to `B` returns status 0 and leaves the Real descriptor named
`Band_1`: the in-memory rename of that descriptor does not take effect. -/
theorem rename_failed_update_counterexample :
    sessionOf failingIO = some failingSession ∧
    failingIO.descriptionWritable 1 "B".toList = false ∧
    (failingSession.aLayers[0]?).map (fun L => (isTopLevel L, L.sName, L.nBand))
      = some (true, "Band_1".toList, 1) ∧
    keaFileLayerNamesSet failingSession ["Band_1".toList] ["B".toList]
      = some (0, afterRename failingSession "Band_1".toList "B".toList) ∧
    ((afterRename failingSession "Band_1".toList "B".toList).aLayers[0]?).map
        (fun L => (isTopLevel L, L.sName, L.nBand)) = some (true, "Band_1".toList, 1) ∧
    "Band_1".toList ≠ "B".toList :=
  ⟨rfl, rfl, by decide, rfl, by decide, by decide⟩

/-- Claim C6, as amended. When the container update for the Real descriptor named `old`
raises, `keaFileLayerNamesSet` returns status 0 and that descriptor keeps the name
`old`. -/
theorem rename_failed_update_keeps_name (f : KEA_File) (io : KEAImageIO) (old new : Str)
    (i : Nat) (L : KEA_Layer) (hio : f.pImageIO = some io) (hL : f.aLayers[i]? = some L)
    (htop : isTopLevel L = true) (hname : L.sName = old)
    (hfail : io.descriptionWritable L.nBand new = false) :
    ∃ f', keaFileLayerNamesSet f [old] [new] = some (0, f') ∧
      (f'.aLayers[i]?).map (·.sName) = some old := by
  obtain ⟨f', hf'⟩ := namesSet_single_total f old new (by simp [hio])
  refine ⟨f', hf', ?_⟩
  obtain ⟨_, hls, _, _⟩ := namesSet_single_spec hf'
  rw [hls, List.getElem?_map, hL, hio]
  simp [renameLayer, htop, hname, writable, hfail]

/-- Witness of claim C6 as amended, in the session of `failingIO`. -/
theorem rename_failed_update_keeps_name_witness :
    ∃ f', keaFileLayerNamesSet failingSession ["Band_1".toList] ["B".toList] = some (0, f') ∧
      (f'.aLayers[0]?).map (·.sName) = some "Band_1".toList :=
  rename_failed_update_keeps_name failingSession failingIO "Band_1".toList "B".toList 0
    _ rfl rfl rfl rfl rfl

/-- Claim C7, counterexample. In the session of `sampleIO` no Real descriptor is named
`Band_1:Overview_1`, yet renaming `Band_1:Overview_1` to `Z` changes the name of the
OverviewMask descriptor from `Band_1:Overview_1:Mask` to `Z:Mask`. -/
theorem rename_unmatched_counterexample :
    sessionOf sampleIO = some sampleSession ∧
    (∀ L ∈ sampleSession.aLayers,
      isTopLevel L = true → L.sName ≠ "Band_1:Overview_1".toList) ∧
    layerNames sampleSession
      = ["Band_1".toList, "Band_1:Mask".toList, "Band_1:Overview_1".toList,
         "Band_1:Overview_1:Mask".toList] ∧
    keaFileLayerNamesSet sampleSession ["Band_1:Overview_1".toList] ["Z".toList]
      = some (0, afterRename sampleSession "Band_1:Overview_1".toList "Z".toList) ∧
    layerNames (afterRename sampleSession "Band_1:Overview_1".toList "Z".toList)
      = ["Band_1".toList, "Band_1:Mask".toList, "Band_1:Overview_1".toList,
         "Z:Mask".toList] :=
  ⟨rfl, by decide, by decide, rfl, by decide⟩

theorem renameLayer_untouched (w : Nat → Str → Bool) (old new : Str) (L : KEA_Layer)
    (hreal : isTopLevel L = true → L.sName ≠ old)
    (hdep : isTopLevel L = false → ¬ (old ++ [':']) <+: L.sName) :
    renameLayer w old new L = L := by
  cases htop : isTopLevel L with
  | true =>
    have hno : (L.bIsOverview || L.bIsMask) = false := by
      rw [← Bool.not_eq_true, ← isTopLevel_eq_false_iff, htop]
      simp
    simp [renameLayer, htop, hreal htop, hno]
  | false =>
    exact (renameLayer_dependent w old new L ((isTopLevel_eq_false_iff L).mp htop)).2
      (hdep htop)

/-- Claim C7, as amended. For every session and every rename entry `old -> new` such
that no Real descriptor is named `old` and no Mask, Overview or OverviewMask descriptor
has a name starting with `old:`, `keaFileLayerNamesSet` returns status 0 and leaves the
session as it was. -/
theorem rename_unmatched_is_noop (f : KEA_File) (old new : Str)
    (hreal : ∀ L ∈ f.aLayers, isTopLevel L = true → L.sName ≠ old)
    (hdep : ∀ L ∈ f.aLayers, isTopLevel L = false → ¬ (old ++ [':']) <+: L.sName) :
    keaFileLayerNamesSet f [old] [new] = some (0, f) := by
  obtain ⟨ls', hls'⟩ := renameLayers_no_top old new f.pImageIO f.aLayers
    (fun L hL hc => hreal L hL hc.1 hc.2)
  have hmap := (renameLayers_spec old new f.aLayers f.pImageIO _ hls').1
  simp only at hmap
  have hid : f.aLayers.map (renameLayer (writable f.pImageIO) old new) = f.aLayers := by
    conv_rhs => rw [← List.map_id f.aLayers]
    apply List.map_congr_left
    intro L hL
    exact renameLayer_untouched _ old new L (hreal L hL) (hdep L hL)
  rw [hid] at hmap
  subst hmap
  rw [namesSet_single_eq, hls']

/-- Witness of claim C7 as amended: no descriptor of the session of `sampleIO` is named
`Other` or has a name starting with `Other:`. -/
theorem rename_unmatched_is_noop_witness :
    keaFileLayerNamesSet sampleSession ["Other".toList] ["Z".toList]
      = some (0, sampleSession) :=
  rename_unmatched_is_noop sampleSession "Other".toList "Z".toList (by decide) (by decide)

theorem namesSet_cons (f : KEA_File) (o n : Str) (os ns : List Str) :
    keaFileLayerNamesSet f (o :: os) (n :: ns)
      = match keaFileLayerNamesSet f [o] [n] with
        | none => none
        | some (_, f') => keaFileLayerNamesSet f' os ns := by
  rw [namesSet_single_eq]
  unfold keaFileLayerNamesSet
  simp only [List.zip_cons_cons, renameEntries]
  cases renameLayers o n f.pImageIO f.aLayers with
  | none => rfl
  | some r => rfl

/-- Claim C8. For two name lists of equal length, one batched call of
`keaFileLayerNamesSet` gives the same result, catalog and container included, as the
single-entry calls made one after the other in list order, each on the session left by
the one before. -/
theorem rename_batch_eq_one_by_one (f : KEA_File) (olds news : List Str)
    (hlen : olds.length = news.length) :
    keaFileLayerNamesSet f olds news = renameOneByOne f olds news := by
  induction olds generalizing f news with
  | nil =>
    cases news with
    | nil => rfl
    | cons n ns => simp at hlen
  | cons o os ih =>
    cases news with
    | nil => simp at hlen
    | cons n ns =>
      rw [namesSet_cons, renameOneByOne]
      cases hs : keaFileLayerNamesSet f [o] [n] with
      | none => rfl
      | some r =>
        obtain ⟨rc, f'⟩ := r
        exact ih f' ns (by simpa using hlen)

/-- Witness of claim C8: a batch of two entries whose second one renames the name made
by the first. -/
theorem rename_batch_eq_one_by_one_witness :
    ["Band_1".toList, "B".toList].length = ["B".toList, "C".toList].length ∧
    keaFileLayerNamesSet sampleSession ["Band_1".toList, "B".toList] ["B".toList, "C".toList]
      = renameOneByOne sampleSession ["Band_1".toList, "B".toList] ["B".toList, "C".toList] :=
  ⟨rfl, rename_batch_eq_one_by_one sampleSession _ _ rfl⟩

/-! ## Properties of the path decoding -/

theorem strrchr_eq_none {s : Str} {c : Char} (h : c ∉ s) : strrchr s c = none := by
  induction s with
  | nil => rfl
  | cons x xs ih =>
    rw [List.mem_cons, not_or] at h
    have hx : ¬ x = c := fun e => h.1 e.symm
    simp [strrchr, ih h.2, hx]

theorem strrchr_append_cons (a b : Str) (c : Char) (h : c ∉ b) :
    strrchr (a ++ c :: b) c = some a.length := by
  induction a with
  | nil => simp [strrchr, strrchr_eq_none h]
  | cons x xs ih => simp [strrchr, ih]

theorem strchr_append_cons (a b : Str) (c : Char) (h : c ∉ a) :
    strchr (a ++ c :: b) c = some a.length := by
  induction a with
  | nil => simp [strchr]
  | cons x xs ih =>
    rw [List.mem_cons, not_or] at h
    have hx : ¬ x = c := fun e => h.1 e.symm
    simp [strchr, hx, ih h.2]

theorem drop_succ_append_cons (a b : Str) (c : Char) :
    (a ++ c :: b).drop (a.length + 1) = b := by
  induction a with
  | nil => rfl
  | cons x xs ih => simp [ih]

theorem take_append_cons (a b : Str) (c : Char) : (a ++ c :: b).take a.length = a := by
  induction a with
  | nil => rfl
  | cons x xs ih => simp [ih]

/-- The decoding of `keaFileDataRead` on a path made of one character `x`, a name `n`
without a colon, and the two literal segments yields `n`. -/
theorem read_layerName_of_shape (x : Char) (n : Str) (hn : ':' ∉ n) :
    keaFileDataRead_layerName
        (x :: n ++ ':' :: "Descriptor_Table".toList ++ ':' :: "#Bin_Function#".toList)
      = some n := by
  have hbf : ':' ∉ "#Bin_Function#".toList := by decide
  have hdt : ':' ∉ "Descriptor_Table".toList := by decide
  have e1 := strrchr_append_cons (x :: n ++ ':' :: "Descriptor_Table".toList)
    "#Bin_Function#".toList ':' hbf
  have e2 := strrchr_append_cons (x :: n) "Descriptor_Table".toList ':' hdt
  have e3 := strchr_append_cons n "Descriptor_Table".toList ':' hn
  unfold keaFileDataRead_layerName
  simp only [e1, drop_succ_append_cons, take_append_cons, if_true, e2]
  simp only [List.cons_append, List.drop_succ_cons, List.drop_zero, e3, take_append_cons]

theorem write_layerName_eq_read (dataName : Str) :
    keaFileDataWrite_layerName dataName = keaFileDataRead_layerName dataName := rfl

/-- Claim C10. For every layer name `n` without a colon, the path decoding of
`keaFileDataRead` and that of `keaFileDataWrite`, applied to
`:n:Descriptor_Table:#Bin_Function#`, match and yield exactly `n`. -/
theorem binFunction_path_decodes_layerName (n : Str) (hn : ':' ∉ n) :
    keaFileDataRead_layerName
        (":".toList ++ n ++ ":Descriptor_Table:#Bin_Function#".toList) = some n ∧
    keaFileDataWrite_layerName
        (":".toList ++ n ++ ":Descriptor_Table:#Bin_Function#".toList) = some n := by
  have hshape : ":".toList ++ n ++ ":Descriptor_Table:#Bin_Function#".toList
      = ':' :: n ++ ':' :: "Descriptor_Table".toList ++ ':' :: "#Bin_Function#".toList := by
    have : ":Descriptor_Table:#Bin_Function#".toList
        = ':' :: "Descriptor_Table".toList ++ ':' :: "#Bin_Function#".toList := by decide
    rw [this]
    simp
  rw [write_layerName_eq_read, hshape]
  exact ⟨read_layerName_of_shape ':' n hn, read_layerName_of_shape ':' n hn⟩

/-- Witness of claim C10 for the layer name `Foo`. -/
theorem binFunction_path_decodes_layerName_witness :
    ':' ∉ "Foo".toList ∧
    keaFileDataRead_layerName ":Foo:Descriptor_Table:#Bin_Function#".toList
      = some "Foo".toList ∧
    keaFileDataWrite_layerName ":Foo:Descriptor_Table:#Bin_Function#".toList
      = some "Foo".toList :=
  ⟨by decide, binFunction_path_decodes_layerName "Foo".toList (by decide)⟩

/-! ## Rename followed by name resolution -/

/-- Claim C4, counterexample. (1) In the session of `colonIO` band 1 is named `A` and has
an overview, band 2 is named `A:Mask`; after renaming `A` to `B` the name `A:Mask` still
resolves, to the Real descriptor of band 2. (2) In the session of `sampleIO`, after
renaming `Band_1` to `Band_1:Mask`, the name `Band_1:Mask` resolves to the renamed Real
descriptor. -/
theorem rename_resolve_counterexample :
    (sessionOf colonIO = some colonSession ∧
      (∃ L ∈ colonSession.aLayers, isTopLevel L = true ∧ L.sName = "A".toList ∧
        1 ≤ overviewCount colonIO L.nBand) ∧
      "B".toList ≠ "A".toList ∧
      keaFileLayerNamesSet colonSession ["A".toList] ["B".toList]
        = some (0, afterRename colonSession "A".toList "B".toList) ∧
      (resolve (afterRename colonSession "A".toList "B".toList) "A:Mask".toList).map
          (fun L => (L.nBand, isTopLevel L)) = some (2, true)) ∧
    (sessionOf sampleIO = some sampleSession ∧
      (∃ L ∈ sampleSession.aLayers, isTopLevel L = true ∧ L.sName = "Band_1".toList ∧
        1 ≤ overviewCount sampleIO L.nBand) ∧
      "Band_1:Mask".toList ≠ "Band_1".toList ∧
      keaFileLayerNamesSet sampleSession ["Band_1".toList] ["Band_1:Mask".toList]
        = some (0, afterRename sampleSession "Band_1".toList "Band_1:Mask".toList) ∧
      (resolve (afterRename sampleSession "Band_1".toList "Band_1:Mask".toList)
          "Band_1:Mask".toList).map (fun L => (L.nBand, isTopLevel L)) = some (1, true)) :=
  ⟨⟨rfl, by decide, by decide, rfl, by decide⟩, ⟨rfl, by decide, by decide, rfl, by decide⟩⟩

theorem append_colon_inj {x y r t : Str} (hx : ':' ∉ x) (hy : ':' ∉ y)
    (h : x ++ ':' :: r = y ++ ':' :: t) : x = y ∧ r = t := by
  induction x generalizing y with
  | nil =>
    cases y with
    | nil => simpa using h
    | cons b y =>
      simp only [List.nil_append, List.cons_append, List.cons.injEq] at h
      exact absurd (h.1 ▸ List.mem_cons_self _ _) hy
  | cons a x ih =>
    cases y with
    | nil =>
      simp only [List.nil_append, List.cons_append, List.cons.injEq] at h
      exact absurd (h.1 ▸ List.mem_cons_self _ _) hx
    | cons b y =>
      simp only [List.cons_append, List.cons.injEq] at h
      rw [List.mem_cons, not_or] at hx hy
      obtain ⟨h1, h2⟩ := ih hx.2 hy.2 h.2
      exact ⟨by rw [h.1, h1], h2⟩

theorem base_of_colon_start {A n rest : Str} (hA : ':' ∉ A) (hn : ':' ∉ n)
    (h : (A ++ [':']) <+: (n ++ ':' :: rest)) : A = n := by
  obtain ⟨t, ht⟩ := h
  rw [List.append_assoc, List.singleton_append] at ht
  exact (append_colon_inj hA hn ht).1

theorem ne_append_colon {n m x : Str} (hn : ':' ∉ n) : n ≠ m ++ ':' :: x := by
  intro h
  apply hn
  rw [h]
  simp

/-- The name of a descriptor of the catalog is the name of its band, followed by
nothing for a Real descriptor and by a colon and more for the others. -/
theorem catalog_name_form {io : KEAImageIO} {L : KEA_Layer} (hL : L ∈ catalog io) :
    L.nBand ∈ supportedBands io ∧
    ((isTopLevel L = true ∧ L.sName = bandName io L.nBand) ∨
     (isTopLevel L = false ∧ ∃ rest, L.sName = bandName io L.nBand ++ ':' :: rest)) := by
  obtain ⟨b, hb, hLb⟩ := mem_catalog.mp hL
  rcases mem_bandBlock.mp hLb with h | h | ⟨o, _, h | h⟩ <;> subst h
  · exact ⟨hb, Or.inl ⟨rfl, rfl⟩⟩
  · exact ⟨hb, Or.inr ⟨rfl, "Mask".toList, rfl⟩⟩
  · refine ⟨hb, Or.inr ⟨rfl, "Overview_".toList ++ fmt_d (o + 1), ?_⟩⟩
    simp only [overviewLayer, List.append_assoc]
    rfl
  · refine ⟨hb, Or.inr ⟨rfl, "Overview_".toList ++ fmt_d (o + 1) ++ ":Mask".toList, ?_⟩⟩
    simp only [overviewMaskLayer, List.append_assoc]
    rfl

theorem renameLayer_flags (w : Nat → Str → Bool) (old new : Str) (L : KEA_Layer) :
    isTopLevel (renameLayer w old new L) = isTopLevel L ∧
    (renameLayer w old new L).nBand = L.nBand := by
  unfold renameLayer
  split
  · split <;> exact ⟨rfl, rfl⟩
  · split <;> exact ⟨rfl, rfl⟩

theorem renameLayer_top (w : Nat → Str → Bool) (old new : Str) (L : KEA_Layer)
    (htop : isTopLevel L = true) :
    (renameLayer w old new L).sName
      = if L.sName = old ∧ w L.nBand new = true then new else L.sName := by
  by_cases h1 : L.sName = old
  · cases h2 : w L.nBand new <;> simp [renameLayer, htop, h1, h2]
  · rw [renameLayer_untouched w old new L (fun _ => h1) (fun hf => by simp [htop] at hf)]
    simp [h1]

/-- The name array returned by `keaFileLayerNamesGet`. -/
theorem layerNamesGet_names (f : KEA_File) :
    (keaFileLayerNamesGet f).1.layerNames
      = (if f.aLayers.filter isTopLevel = [] then none
         else some ((f.aLayers.filter isTopLevel).map (·.sName))) := by
  unfold keaFileLayerNamesGet
  simp only [countTopLevel_eq, Nat.zero_add, collectTopLevel_eq, List.nil_append]
  by_cases hnil : f.aLayers.filter isTopLevel = []
  · simp [hnil]
  · have hpos : (f.aLayers.filter isTopLevel).length > 0 := List.length_pos.mpr hnil
    simp [hnil, hpos]

/-- The name of a catalog descriptor after the rename `A -> B`, when band names carry
no colon and the container accepts `B`: the band name `n` gives way to `B` when it is
`A`, and what follows it stays. -/
theorem renamed_catalog_name {io : KEAImageIO} {A B : Str} {L : KEA_Layer}
    (hcolon : ∀ b ∈ supportedBands io, ':' ∉ bandName io b) (hA : ':' ∉ A)
    (hw : ∀ b, io.descriptionWritable b B = true) (hL : L ∈ catalog io) :
    (isTopLevel L = true ∧
      (renameLayer (writable (some io)) A B L).sName
        = (if bandName io L.nBand = A then B else bandName io L.nBand)) ∨
    (isTopLevel L = false ∧ ∃ rest,
      (renameLayer (writable (some io)) A B L).sName
        = (if bandName io L.nBand = A then B else bandName io L.nBand) ++ ':' :: rest) := by
  obtain ⟨hb, hform⟩ := catalog_name_form hL
  rcases hform with ⟨htop, hname⟩ | ⟨htop, rest, hname⟩
  · left
    refine ⟨htop, ?_⟩
    rw [renameLayer_top _ _ _ _ htop, hname]
    have : writable (some io) L.nBand B = true := hw L.nBand
    simp [this]
  · right
    refine ⟨htop, rest, ?_⟩
    have hdep := (isTopLevel_eq_false_iff L).mp htop
    obtain ⟨h1, h2⟩ := renameLayer_dependent (writable (some io)) A B L hdep
    by_cases hn : bandName io L.nBand = A
    · rw [if_pos hn]
      exact h1 rest (by rw [hname, hn])
    · rw [if_neg hn, h2, hname]
      intro hpre
      rw [hname] at hpre
      exact hn (base_of_colon_start hA (hcolon _ hb) hpre).symm

/-- Claim C4, as amended. For a session built by open on a container whose supported
bands have descriptions without a colon, a Real descriptor named `A` whose band has at
least one overview, and a new name `B` without a colon and different from `A` that the
container accepts: after `keaFileLayerNamesSet` renames `A` to `B` the top-level name
list contains `B` and not `A`, the names `B:Mask`, `B:Overview_1` and `B:Overview_1:Mask`
each resolve to a descriptor, and `A:Mask`, `A:Overview_1` and `A:Overview_1:Mask`
resolve to none. -/
theorem rename_then_resolve (env : KEAEnv) (fileName : Str) (fileType : Int)
    (mode : FileMode) (io : KEAImageIO) (f : KEA_File) (A B : Str)
    (hmode : EFIO_MODE_CREATE mode = false)
    (hcont : openContainer env fileName mode = some io)
    (hopen : (keaFileTitleIdentifyAndOpen env fileName fileType (some mode)).1 = some f)
    (hcolon : ∀ b ∈ supportedBands io, ':' ∉ bandName io b)
    (hA : ∃ L ∈ f.aLayers, isTopLevel L = true ∧ L.sName = A ∧ 1 ≤ overviewCount io L.nBand)
    (hBA : B ≠ A) (hB : ':' ∉ B) (hw : ∀ b, io.descriptionWritable b B = true) :
    ∃ f', keaFileLayerNamesSet f [A] [B] = some (0, f') ∧
      (∃ names, (keaFileLayerNamesGet f').1.layerNames = some names ∧ B ∈ names ∧ A ∉ names) ∧
      (resolve f' (B ++ ":Mask".toList)).isSome = true ∧
      (resolve f' (B ++ ":Overview_1".toList)).isSome = true ∧
      (resolve f' (B ++ ":Overview_1:Mask".toList)).isSome = true ∧
      resolve f' (A ++ ":Mask".toList) = none ∧
      resolve f' (A ++ ":Overview_1".toList) = none ∧
      resolve f' (A ++ ":Overview_1:Mask".toList) = none := by
  obtain ⟨io', hio', _, hfio, hcat⟩ := open_some_inv hmode hopen
  rw [hcont] at hio'
  cases hio'
  obtain ⟨f', hf'⟩ := namesSet_single_total f A B (by simp [hfio])
  obtain ⟨_, hls, _, _⟩ := namesSet_single_spec hf'
  rw [hfio, hcat] at hls
  -- the band of the Real descriptor named `A`
  obtain ⟨L0, hL0, hL0top, hL0name, hov⟩ := hA
  rw [hcat] at hL0
  obtain ⟨hb0, hform0⟩ := catalog_name_form hL0
  have hbn : bandName io L0.nBand = A := by
    rcases hform0 with ⟨_, h⟩ | ⟨h, _⟩
    · rw [← h, hL0name]
    · rw [hL0top] at h
      cases h
  have hAc : ':' ∉ A := hbn ▸ hcolon _ hb0
  have hblock : ∀ L, L ∈ bandBlock io L0.nBand → L ∈ catalog io :=
    fun L hL => mem_catalog.mpr ⟨_, hb0, hL⟩
  -- every name after the rename
  have hafter : ∀ L' ∈ f'.aLayers, ∃ L ∈ catalog io,
      L' = renameLayer (writable (some io)) A B L := by
    intro L' hL'
    rw [hls, List.mem_map] at hL'
    obtain ⟨L, hL, rfl⟩ := hL'
    exact ⟨L, hL, rfl⟩
  have hbase : ∀ n : Str, (if n = A then B else n) ≠ A := by
    intro n
    split
    · exact hBA
    · assumption
  have hbasec : ∀ b ∈ supportedBands io,
      ':' ∉ (if bandName io b = A then B else bandName io b) := by
    intro b hb
    split
    · exact hB
    · exact hcolon b hb
  have hnoA : ∀ x : Str, ∀ L' ∈ f'.aLayers, L'.sName ≠ A ++ ':' :: x := by
    intro x L' hL'
    obtain ⟨L, hL, rfl⟩ := hafter L' hL'
    have hb := (catalog_name_form hL).1
    rcases renamed_catalog_name hcolon hAc hw hL with ⟨_, hn⟩ | ⟨_, rest, hn⟩
    · rw [hn]
      exact ne_append_colon (hbasec _ hb)
    · rw [hn]
      intro heq
      exact hbase _ (append_colon_inj (hbasec _ hb) hAc heq).1
  have hnone : ∀ x : Str, resolve f' (A ++ ':' :: x) = none := by
    intro x
    unfold resolve
    rw [List.find?_eq_none]
    intro L' hL'
    simpa using hnoA x L' hL'
  have hsome : ∀ (L : KEA_Layer) (rest : Str), L ∈ bandBlock io L0.nBand →
      isTopLevel L = false → L.sName = A ++ ':' :: rest →
      (resolve f' (B ++ ':' :: rest)).isSome = true := by
    intro L rest hL htop hname
    unfold resolve
    rw [List.find?_isSome]
    refine ⟨renameLayer (writable (some io)) A B L, ?_, ?_⟩
    · rw [hls]
      exact List.mem_map_of_mem _ (hblock L hL)
    · have := (renameLayer_dependent (writable (some io)) A B L
        ((isTopLevel_eq_false_iff L).mp htop)).1 rest hname
      simpa using this
  have hov1 : 0 < overviewCount io L0.nBand := hov
  refine ⟨f', hf', ?_, ?_, ?_, ?_, hnone _, hnone _, hnone _⟩
  · -- the top-level name list
    have hmemB : B ∈ (f'.aLayers.filter isTopLevel).map (·.sName) := by
      rw [List.mem_map]
      refine ⟨renameLayer (writable (some io)) A B (realLayer io L0.nBand), ?_, ?_⟩
      · rw [List.mem_filter]
        refine ⟨?_, ?_⟩
        · rw [hls]
          exact List.mem_map_of_mem _ (hblock _ (mem_bandBlock.mpr (Or.inl rfl)))
        · rw [(renameLayer_flags _ _ _ _).1]
          rfl
      · have hwb : writable (some io) L0.nBand B = true := hw L0.nBand
        rw [renameLayer_top (writable (some io)) A B (realLayer io L0.nBand) rfl]
        simp [realLayer, hbn, hwb]
    have hne : f'.aLayers.filter isTopLevel ≠ [] := by
      intro h
      rw [h] at hmemB
      simp at hmemB
    refine ⟨_, by rw [layerNamesGet_names, if_neg hne], hmemB, ?_⟩
    intro hmemA
    rw [List.mem_map] at hmemA
    obtain ⟨L', hL', hname⟩ := hmemA
    rw [List.mem_filter] at hL'
    obtain ⟨L, hL, rfl⟩ := hafter L' hL'.1
    have htop : isTopLevel L = true := by
      rw [← (renameLayer_flags (writable (some io)) A B L).1]
      exact hL'.2
    rcases renamed_catalog_name hcolon hAc hw hL with ⟨_, hn⟩ | ⟨hf, _⟩
    · rw [hn] at hname
      exact hbase _ hname
    · rw [htop] at hf
      cases hf
  · exact hsome (maskLayer io L0.nBand) "Mask".toList
      (mem_bandBlock.mpr (Or.inr (Or.inl rfl))) rfl (by rw [← hbn]; rfl)
  · refine hsome (overviewLayer io L0.nBand 1) "Overview_1".toList
      (mem_bandBlock.mpr (Or.inr (Or.inr ⟨0, hov1, Or.inl rfl⟩))) rfl ?_
    rw [← hbn]
    simp only [overviewLayer, List.append_assoc]
    rfl
  · refine hsome (overviewMaskLayer io L0.nBand 1) "Overview_1:Mask".toList
      (mem_bandBlock.mpr (Or.inr (Or.inr ⟨0, hov1, Or.inr rfl⟩))) rfl ?_
    rw [← hbn]
    simp only [overviewMaskLayer, List.append_assoc]
    rfl

/-- Witness of claim C4 as amended: renaming `Band_1` to `B` in the session of
`sampleIO`. -/
theorem rename_then_resolve_witness :
    ∃ f', keaFileLayerNamesSet sampleSession ["Band_1".toList] ["B".toList] = some (0, f') ∧
      (∃ names, (keaFileLayerNamesGet f').1.layerNames = some names ∧
        "B".toList ∈ names ∧ "Band_1".toList ∉ names) ∧
      (resolve f' ("B".toList ++ ":Mask".toList)).isSome = true ∧
      (resolve f' ("B".toList ++ ":Overview_1".toList)).isSome = true ∧
      (resolve f' ("B".toList ++ ":Overview_1:Mask".toList)).isSome = true ∧
      resolve f' ("Band_1".toList ++ ":Mask".toList) = none ∧
      resolve f' ("Band_1".toList ++ ":Overview_1".toList) = none ∧
      resolve f' ("Band_1".toList ++ ":Overview_1:Mask".toList) = none :=
  rename_then_resolve (envOf sampleIO) "a.kea".toList 1 FileMode.readOnly sampleIO
    sampleSession "Band_1".toList "B".toList rfl rfl rfl (by decide) (by decide) (by decide)
    (by decide) (fun _ => rfl)

/-! ## Uniqueness of descriptor names -/

theorem digitVal_digitChar (k : Nat) (h : k < 10) : digitVal (Nat.digitChar k) = k := by
  interval_cases k <;> rfl

theorem digitChar_ne_colon (k : Nat) (h : k < 10) : Nat.digitChar k ≠ ':' := by
  interval_cases k <;> decide

theorem decode_toDigitsCore (fuel : Nat) : ∀ (n : Nat) (ds : Str), n < fuel →
    decodeDigits 0 (Nat.toDigitsCore 10 fuel n ds) = decodeDigits n ds := by
  induction fuel with
  | zero => intro n ds h; omega
  | succ fuel ih =>
    intro n ds h
    unfold Nat.toDigitsCore
    simp only
    have hmod : n % 10 < 10 := Nat.mod_lt _ (by decide)
    split
    · rename_i h0
      have hn : n % 10 = n := by omega
      have hd : digitVal (Nat.digitChar n) = n := by
        have := digitVal_digitChar _ hmod
        rwa [hn] at this
      simp only [decodeDigits, List.foldl_cons, Nat.mul_zero, Nat.zero_add, hn, hd]
    · rename_i h0
      rw [ih (n / 10) _ (by omega)]
      simp only [decodeDigits, List.foldl_cons, digitVal_digitChar _ hmod]
      congr 1
      omega

/-- The decimal rendering of overview levels is one to one. -/
theorem fmt_d_injective {a b : Nat} (h : fmt_d a = fmt_d b) : a = b := by
  have ha := decode_toDigitsCore (a + 1) a [] (by omega)
  have hb := decode_toDigitsCore (b + 1) b [] (by omega)
  unfold fmt_d Nat.toDigits at h
  rw [h, hb] at ha
  simpa [decodeDigits] using ha.symm

theorem toDigitsCore_no_colon (fuel : Nat) : ∀ (n : Nat) (ds : Str), ':' ∉ ds →
    ':' ∉ Nat.toDigitsCore 10 fuel n ds := by
  induction fuel with
  | zero => intro n ds h; simpa [Nat.toDigitsCore] using h
  | succ fuel ih =>
    intro n ds h
    unfold Nat.toDigitsCore
    simp only
    have hmod : n % 10 < 10 := Nat.mod_lt _ (by decide)
    have hc : ':' ∉ Nat.digitChar (n % 10) :: ds := by
      rw [List.mem_cons, not_or]
      exact ⟨fun e => digitChar_ne_colon _ hmod e.symm, h⟩
    split
    · exact hc
    · exact ih _ _ hc

/-- The decimal rendering of an overview level holds no colon. -/
theorem fmt_d_no_colon (k : Nat) : ':' ∉ fmt_d k :=
  toDigitsCore_no_colon _ _ _ (by simp)

theorem nodup_overviewBlock (io : KEAImageIO) (b : Nat) (os : List Nat) (h : os.Nodup) :
    (overviewBlock io b os).Nodup := by
  induction os with
  | nil => simp [overviewBlock]
  | cons o os ih =>
    rw [List.nodup_cons] at h
    have hrest := ih h.2
    have hnot : ∀ L ∈ overviewBlock io b os, L.nOverview ≠ o + 1 := by
      intro L hL
      obtain ⟨o', ho', hL' | hL'⟩ := mem_overviewBlock.mp hL <;> subst hL' <;>
        simp only [overviewLayer, overviewMaskLayer] <;> intro hc <;>
        exact h.1 (by have : o' = o := by omega
                      exact this ▸ ho')
    have hsplit : overviewBlock io b (o :: os)
        = overviewLayer io b (o + 1) :: overviewMaskLayer io b (o + 1) ::
            overviewBlock io b os := by
      simp [overviewBlock]
    rw [hsplit, List.nodup_cons, List.nodup_cons]
    refine ⟨?_, ?_, hrest⟩
    · rw [List.mem_cons, not_or]
      refine ⟨?_, fun hc => hnot _ hc rfl⟩
      intro hc
      have := congrArg KEA_Layer.bIsMask hc
      simp [overviewLayer, overviewMaskLayer] at this
    · exact fun hc => hnot _ hc rfl

theorem nodup_bandBlock (io : KEAImageIO) (b : Nat) : (bandBlock io b).Nodup := by
  unfold bandBlock
  rw [List.nodup_cons, List.nodup_cons]
  refine ⟨?_, ?_, nodup_overviewBlock io b _ (List.nodup_range _)⟩
  · rw [List.mem_cons, not_or]
    constructor
    · intro hc
      have := congrArg KEA_Layer.bIsMask hc
      simp [realLayer, maskLayer] at this
    · intro hc
      obtain ⟨o, _, h | h⟩ := mem_overviewBlock.mp hc <;>
        · have := congrArg KEA_Layer.bIsOverview h
          simp [realLayer, overviewLayer, overviewMaskLayer] at this
  · intro hc
    obtain ⟨o, _, h | h⟩ := mem_overviewBlock.mp hc <;>
      · have := congrArg KEA_Layer.bIsOverview h
        simp [maskLayer, overviewLayer, overviewMaskLayer] at this

theorem nodup_flatMap_bandBlock (io : KEAImageIO) (bs : List Nat) (h : bs.Nodup) :
    (bs.flatMap (bandBlock io)).Nodup := by
  induction bs with
  | nil => simp
  | cons b bs ih =>
    rw [List.nodup_cons] at h
    rw [List.flatMap_cons, List.nodup_append]
    refine ⟨nodup_bandBlock io b, ih h.2, ?_⟩
    intro L hL hL'
    rw [List.mem_flatMap] at hL'
    obtain ⟨c, hc, hLc⟩ := hL'
    have h1 := nBand_of_mem_bandBlock hL
    have h2 := nBand_of_mem_bandBlock hLc
    rw [h1] at h2
    exact h.1 (h2 ▸ hc)

theorem nodup_catalog (io : KEAImageIO) : (catalog io).Nodup :=
  nodup_flatMap_bandBlock io _ (nodup_supportedBands io)

theorem fmt_d_ne_append_mask (k k' : Nat) : fmt_d k ≠ fmt_d k' ++ ":Mask".toList := by
  intro h
  apply fmt_d_no_colon k
  rw [h]
  simp

/-- Within the block of one band, distinct descriptors have distinct names. -/
theorem bandBlock_name_inj {io : KEAImageIO} {b : Nat} {L L' : KEA_Layer}
    (hL : L ∈ bandBlock io b) (hL' : L' ∈ bandBlock io b) (h : L.sName = L'.sName) :
    L = L' := by
  have hM : ":Mask".toList = [':', 'M', 'a', 's', 'k'] := rfl
  have hO : ":Overview_".toList = [':', 'O', 'v', 'e', 'r', 'v', 'i', 'e', 'w', '_'] := rfl
  have hmk : ∀ k k', fmt_d k ≠ fmt_d k' ++ [':', 'M', 'a', 's', 'k'] :=
    fun k k' => hM ▸ fmt_d_ne_append_mask k k'
  rcases mem_bandBlock.mp hL with e | e | ⟨o, _, e | e⟩ <;>
    rcases mem_bandBlock.mp hL' with e' | e' | ⟨o', _, e' | e'⟩ <;>
    subst e <;> subst e' <;>
    simp only [realLayer, maskLayer, overviewLayer, overviewMaskLayer, List.append_assoc,
      hM, hO, List.self_eq_append_right, List.append_right_eq_self, List.append_cancel_left_eq,
      List.cons_append, List.nil_append, List.cons.injEq, List.append_eq_nil, false_and,
      and_false, and_true, true_and, reduceCtorEq, Char.reduceEq] at h <;>
    first
      | rfl
      | exact absurd h (hmk _ _)
      | exact absurd h.symm (hmk _ _)
      | (have hk : o = o' := by
           have := fmt_d_injective h
           omega
         subst hk
         rfl)
      | (have hk : o = o' := by
           have := fmt_d_injective (List.append_cancel_right h)
           omega
         subst hk
         rfl)

/-- With band names that carry no colon and differ from band to band, distinct
descriptors of the catalog have distinct names. -/
theorem catalog_name_inj {io : KEAImageIO}
    (hcolon : ∀ b ∈ supportedBands io, ':' ∉ bandName io b)
    (hinj : ∀ b ∈ supportedBands io, ∀ c ∈ supportedBands io,
      bandName io b = bandName io c → b = c)
    {L L' : KEA_Layer} (hL : L ∈ catalog io) (hL' : L' ∈ catalog io)
    (h : L.sName = L'.sName) : L = L' := by
  obtain ⟨hb, hform⟩ := catalog_name_form hL
  obtain ⟨hb', hform'⟩ := catalog_name_form hL'
  have hc := hcolon _ hb
  have hc' := hcolon _ hb'
  have hband : L.nBand = L'.nBand := by
    apply hinj _ hb _ hb'
    rcases hform with ⟨_, e⟩ | ⟨_, r, e⟩ <;> rcases hform' with ⟨_, e'⟩ | ⟨_, r', e'⟩
    · rw [← e, ← e', h]
    · rw [e, e'] at h
      exact absurd h (ne_append_colon hc)
    · rw [e, e'] at h
      exact absurd h.symm (ne_append_colon hc')
    · rw [e, e'] at h
      exact (append_colon_inj hc hc' h).1
  obtain ⟨b, _, hLb⟩ := mem_catalog.mp hL
  obtain ⟨c, _, hLc⟩ := mem_catalog.mp hL'
  have h1 := nBand_of_mem_bandBlock hLb
  have h2 := nBand_of_mem_bandBlock hLc
  have hbc : b = c := by rw [← h1, ← h2, hband]
  subst hbc
  exact bandBlock_name_inj hLb hLc h

theorem catalog_names_nodup {io : KEAImageIO}
    (hcolon : ∀ b ∈ supportedBands io, ':' ∉ bandName io b)
    (hinj : ∀ b ∈ supportedBands io, ∀ c ∈ supportedBands io,
      bandName io b = bandName io c → b = c) :
    ((catalog io).map (·.sName)).Nodup :=
  List.Nodup.map_on (fun _ hx _ hy h => catalog_name_inj hcolon hinj hx hy h)
    (nodup_catalog io)

/-- The name that the rename pass gives a layer: the old one, or `new` for a layer
named `old`, or `new:rest` for a layer named `old:rest`. -/
theorem renameLayer_name_cases (w : Nat → Str → Bool) (old new : Str) (L : KEA_Layer) :
    (renameLayer w old new L).sName = L.sName ∨
    ((renameLayer w old new L).sName = new ∧ L.sName = old) ∨
    (∃ rest, L.sName = old ++ ':' :: rest ∧
      (renameLayer w old new L).sName = new ++ ':' :: rest) := by
  cases htop : isTopLevel L with
  | true =>
    rw [renameLayer_top w old new L htop]
    by_cases hc : L.sName = old ∧ w L.nBand new = true
    · rw [if_pos hc]
      exact Or.inr (Or.inl ⟨rfl, hc.1⟩)
    · rw [if_neg hc]
      exact Or.inl rfl
  | false =>
    obtain ⟨h1, h2⟩ := renameLayer_dependent w old new L ((isTopLevel_eq_false_iff L).mp htop)
    by_cases hp : (old ++ [':']) <+: L.sName
    · obtain ⟨t, ht⟩ := hp
      have hname : L.sName = old ++ ':' :: t := by
        rw [← ht]
        simp
      exact Or.inr (Or.inr ⟨t, hname, h1 t hname⟩)
    · rw [h2 hp]
      exact Or.inl rfl

/-- One pass of the rename loop keeps the names unique when the new name is fresh. -/
theorem rename_names_nodup (w : Nat → Str → Bool) (old new : Str) (ls : List KEA_Layer)
    (hnd : (ls.map (·.sName)).Nodup)
    (hfresh : ∀ L ∈ ls, L.sName ≠ new ∧ ¬ (new ++ [':']) <+: L.sName) :
    ((ls.map (renameLayer w old new)).map (·.sName)).Nodup := by
  rw [List.map_map]
  refine List.Nodup.map_on ?_ (List.Nodup.of_map _ hnd)
  intro x hx y hy hxy
  apply List.inj_on_of_nodup_map hnd hx hy
  simp only [Function.comp_apply] at hxy
  have hpre : ∀ (z : KEA_Layer) (rest : Str), z ∈ ls → z.sName ≠ new ++ ':' :: rest := by
    intro z rest hz hc
    apply (hfresh z hz).2
    rw [hc]
    exact ⟨rest, by simp⟩
  have hlen : ∀ rest : Str, new ≠ new ++ ':' :: rest := by
    intro rest hc
    have := congrArg List.length hc
    simp at this
  rcases renameLayer_name_cases w old new x with hx1 | ⟨hx1, hx2⟩ | ⟨r, hx2, hx1⟩ <;>
    rcases renameLayer_name_cases w old new y with hy1 | ⟨hy1, hy2⟩ | ⟨r', hy2, hy1⟩ <;>
    rw [hx1, hy1] at hxy
  · exact hxy
  · exact absurd hxy (hfresh x hx).1
  · exact absurd hxy (hpre x r' hx)
  · exact absurd hxy.symm (hfresh y hy).1
  · rw [hx2, hy2]
  · exact absurd hxy (hlen r')
  · exact absurd hxy.symm (hpre y r hy)
  · exact absurd hxy.symm (hlen r)
  · have : r = r' := by simpa using hxy
    rw [hx2, hy2, this]

/-- A batch of renames whose new names are fresh keeps the names unique. -/
theorem batch_names_nodup (olds : List Str) :
    ∀ (news : List Str) (f : KEA_File) (r : Int × KEA_File),
      (layerNames f).Nodup → FreshBatch f olds news →
      keaFileLayerNamesSet f olds news = some r → (layerNames r.2).Nodup := by
  induction olds with
  | nil =>
    intro news f r hnd _ hcall
    have : r.2 = f := by
      unfold keaFileLayerNamesSet at hcall
      simp only [List.zip_nil_left, renameEntries, Option.some.injEq] at hcall
      rw [← hcall]
    rw [this]
    exact hnd
  | cons o os ih =>
    intro news f r hnd hfresh hcall
    cases news with
    | nil =>
      have : r.2 = f := by
        unfold keaFileLayerNamesSet at hcall
        simp only [List.zip_nil_right, renameEntries, Option.some.injEq] at hcall
        rw [← hcall]
      rw [this]
      exact hnd
    | cons n ns =>
      rw [namesSet_cons] at hcall
      cases hs : keaFileLayerNamesSet f [o] [n] with
      | none => simp [hs] at hcall
      | some r1 =>
        obtain ⟨rc, f1⟩ := r1
        simp only [hs] at hcall
        obtain ⟨hf, hrest⟩ := hfresh
        obtain ⟨_, hls, _, _⟩ := namesSet_single_spec hs
        have hnd1 : (layerNames f1).Nodup := by
          unfold layerNames
          rw [hls]
          exact rename_names_nodup _ o n f.aLayers hnd hf
        exact ih ns f1 r hnd1 (hrest rc f1 hs) hcall

/-- Claim C9, counterexample. The container `twinIO` has two supported bands with the
same description; the session that open builds for it holds the names `Band_1` and
`Band_1:Mask` twice each. -/
theorem names_unique_counterexample :
    Reachable twinIO twinSession ∧
    layerNames twinSession
      = ["Band_1".toList, "Band_1:Mask".toList, "Band_1".toList, "Band_1:Mask".toList] ∧
    ¬ (layerNames twinSession).Nodup :=
  ⟨Reachable.opened (envOf twinIO) "a.kea".toList 1 FileMode.readOnly twinSession
    rfl rfl rfl, by decide, by decide⟩

/-- Claim C9, as amended. When the supported bands of the container have descriptions
without a colon that stay pairwise distinct once spaces are turned into underscores,
descriptor names are unique in every session reached from open by calls of
`keaFileLayerNamesSet` in which each new name is fresh, that is, neither the name of a
descriptor nor followed by a colon at the start of one, when its entry is processed. -/
theorem reachable_names_unique (io : KEAImageIO) (f : KEA_File)
    (hcolon : ∀ b ∈ supportedBands io, ':' ∉ bandName io b)
    (hinj : ∀ b ∈ supportedBands io, ∀ c ∈ supportedBands io,
      bandName io b = bandName io c → b = c)
    (h : ReachableFresh io f) : (layerNames f).Nodup := by
  induction h with
  | opened env fileName fileType mode f hmode hcont hopen =>
    obtain ⟨io', hio', _, _, hcat⟩ := open_some_inv hmode hopen
    rw [hcont] at hio'
    cases hio'
    unfold layerNames
    rw [hcat]
    exact catalog_names_nodup hcolon hinj
  | renamed f olds news rc f' _ _ hfresh hcall ih =>
    exact batch_names_nodup olds news f (rc, f') ih hfresh hcall

/-- Witness of claim C9 as amended: the session of `sampleIO` after `Band_1` is renamed
to `B`. -/
theorem reachable_names_unique_witness :
    (layerNames (afterRename sampleSession "Band_1".toList "B".toList)).Nodup :=
  reachable_names_unique sampleIO _ (by decide) (by decide)
    (ReachableFresh.renamed sampleSession ["Band_1".toList] ["B".toList] 0 _
      (ReachableFresh.opened (envOf sampleIO) "a.kea".toList 1 FileMode.readOnly
        sampleSession rfl rfl rfl)
      rfl ⟨by unfold Fresh; decide, fun _ _ _ => trivial⟩ rfl)

/-! ## Which paths the decoding accepts -/

theorem strrchr_split {s : Str} {c : Char} {i : Nat} (h : strrchr s c = some i) :
    s = s.take i ++ c :: s.drop (i + 1) := by
  induction s generalizing i with
  | nil => simp [strrchr] at h
  | cons x xs ih =>
    unfold strrchr at h
    cases hr : strrchr xs c with
    | some j =>
      simp only [hr, Option.some.injEq] at h
      subst h
      have := ih hr
      simp only [List.take_succ_cons, List.drop_succ_cons, List.cons_append]
      rw [← this]
    | none =>
      simp only [hr] at h
      split at h
      · rename_i hx
        simp only [Option.some.injEq] at h
        subst h
        simp [hx]
      · cases h

theorem strchr_eq_none {s : Str} {c : Char} (h : c ∉ s) : strchr s c = none := by
  induction s with
  | nil => rfl
  | cons x xs ih =>
    rw [List.mem_cons, not_or] at h
    have hx : ¬ x = c := fun e => h.1 e.symm
    simp [strchr, hx, ih h.2]

/-- The decoding of `keaFileDataRead` on one character `x`, a name `n` without a colon,
further text `rest` that is empty or starts with a colon, and the two literal segments:
the layer name is `n`. -/
theorem read_layerName_first_segment (x : Char) (n rest : Str) (hn : ':' ∉ n)
    (hrest : rest = [] ∨ ∃ r, rest = ':' :: r) :
    keaFileDataRead_layerName
        (x :: n ++ rest ++ ':' :: "Descriptor_Table".toList ++ ':' :: "#Bin_Function#".toList)
      = some n := by
  have hbf : ':' ∉ "#Bin_Function#".toList := by decide
  have hdt : ':' ∉ "Descriptor_Table".toList := by decide
  have e1 := strrchr_append_cons (x :: n ++ rest ++ ':' :: "Descriptor_Table".toList)
    "#Bin_Function#".toList ':' hbf
  have e2 := strrchr_append_cons (x :: n ++ rest) "Descriptor_Table".toList ':' hdt
  have e3 : ∃ b, n ++ rest ++ ':' :: "Descriptor_Table".toList = n ++ ':' :: b := by
    rcases hrest with h | ⟨r, h⟩ <;> subst h
    · exact ⟨"Descriptor_Table".toList, by rw [List.append_nil]⟩
    · exact ⟨r ++ ':' :: "Descriptor_Table".toList, by simp⟩
  obtain ⟨b, hb⟩ := e3
  unfold keaFileDataRead_layerName
  simp only [e1, drop_succ_append_cons, take_append_cons, if_true, e2]
  simp only [List.cons_append, List.drop_succ_cons, List.drop_zero]
  simp only [List.cons_append] at hb
  rw [hb, strchr_append_cons n b ':' hn]
  simp only [take_append_cons]

/-- A path that the decoding of `keaFileDataRead` accepts ends, after its first
character, in the two literal segments. -/
theorem read_layerName_some_shape {path name : Str}
    (h : keaFileDataRead_layerName path = some name) :
    binFunctionTail <:+ path.drop 1 := by
  unfold keaFileDataRead_layerName at h
  simp only at h
  cases h1 : strrchr path ':' with
  | none => simp [h1] at h
  | some i =>
    simp only [h1] at h
    split at h
    · rename_i hbf
      cases h2 : strrchr (path.take i) ':' with
      | none => simp [h2] at h
      | some j =>
        simp only [h2] at h
        split at h
        · rename_i hdt
          have hp := strrchr_split h1
          have hx := strrchr_split h2
          rw [hbf] at hp
          rw [hdt] at hx
          cases hy : (path.take i).take j with
          | nil =>
            rw [hy, List.nil_append] at hx
            rw [hx] at h
            have hno : strchr ((':' :: "Descriptor_Table".toList).drop 1) ':' = none := by
              decide
            rw [hno] at h
            cases h
          | cons c Y =>
            rw [hy] at hx
            rw [hp, hx]
            refine ⟨Y, ?_⟩
            simp only [binFunctionTail, List.cons_append, List.drop_succ_cons, List.drop_zero,
              List.append_assoc]
            rfl
        · cases h
    · cases h

/-- Claim C11, counterexample. The decoding accepts a path without leading colon
(the first character is passed over unchecked, so `XFoo:...` yields `Foo` and `X:...`
yields the empty name) and a path with four segments (yielding the first one). -/
theorem binFunction_path_deviation_counterexample :
    keaFileDataRead_layerName "XFoo:Descriptor_Table:#Bin_Function#".toList
      = some "Foo".toList ∧
    keaFileDataWrite_layerName "XFoo:Descriptor_Table:#Bin_Function#".toList
      = some "Foo".toList ∧
    keaFileDataRead_layerName "X:Descriptor_Table:#Bin_Function#".toList = some [] ∧
    keaFileDataRead_layerName ":Foo:Bar:Descriptor_Table:#Bin_Function#".toList
      = some "Foo".toList ∧
    keaFileDataWrite_layerName ":Foo:Bar:Descriptor_Table:#Bin_Function#".toList
      = some "Foo".toList := by
  decide

/-- Claim C11, as amended. For every path that, after its first character, does not
end in `:Descriptor_Table:#Bin_Function#` (a wrong literal in either of the last two
segments, or fewer than two segments before them), the decoding of `keaFileDataRead`
and that of `keaFileDataWrite` yield no match. -/
theorem binFunction_path_no_match (path : Str)
    (h : ¬ binFunctionTail <:+ path.drop 1) :
    keaFileDataRead_layerName path = none ∧ keaFileDataWrite_layerName path = none := by
  have hr : keaFileDataRead_layerName path = none := by
    cases hd : keaFileDataRead_layerName path with
    | none => rfl
    | some name => exact absurd (read_layerName_some_shape hd) h
  exact ⟨hr, by rw [write_layerName_eq_read, hr]⟩

/-- Witness of claim C11 as amended: a wrong literal in the last segment. -/
theorem binFunction_path_no_match_witness :
    keaFileDataRead_layerName ":Foo:Something_Else#".toList = none ∧
    keaFileDataWrite_layerName ":Foo:Something_Else#".toList = none :=
  binFunction_path_no_match ":Foo:Something_Else#".toList (by decide)

/-! ## Composing a name and decoding its bin function path -/

theorem map_underscore_no_colon {base : Str} (h : ':' ∉ base) :
    ':' ∉ base.map (fun c => if c = ' ' then '_' else c) := by
  induction base with
  | nil => simp
  | cons x xs ih =>
    rw [List.mem_cons, not_or] at h
    rw [List.map_cons, List.mem_cons, not_or]
    refine ⟨?_, ih h.2⟩
    split
    · decide
    · exact h.1

/-- A composed name is the normalised base name followed by nothing or by a colon and
more. -/
theorem composeName_form (base : Str) (role : Role) (level : Nat) :
    ∃ rest, composeName base role level = composeName base Role.Real level ++ rest ∧
      (rest = [] ∨ ∃ r, rest = ':' :: r) := by
  cases role with
  | Real => exact ⟨[], by simp, Or.inl rfl⟩
  | Mask => exact ⟨":Mask".toList, rfl, Or.inr ⟨"Mask".toList, rfl⟩⟩
  | Overview =>
    exact ⟨":Overview_".toList ++ decimal level, by simp [composeName],
      Or.inr ⟨"Overview_".toList ++ decimal level, rfl⟩⟩
  | OverviewMask =>
    exact ⟨":Overview_".toList ++ decimal level ++ ":Mask".toList, by simp [composeName],
      Or.inr ⟨"Overview_".toList ++ decimal level ++ ":Mask".toList, rfl⟩⟩

/-- Claim C12, counterexample. For the base name `Foo` the composed names of the roles
Mask and Overview (level 1) are `Foo:Mask` and `Foo:Overview_1`, but the decoding of
their bin function paths extracts `Foo` in both cases, not the composed name. -/
theorem compose_decode_counterexample :
    composeName "Foo".toList Role.Mask 1 = "Foo:Mask".toList ∧
    keaFileDataRead_layerName (":".toList ++ composeName "Foo".toList Role.Mask 1
        ++ ":Descriptor_Table:#Bin_Function#".toList) = some "Foo".toList ∧
    composeName "Foo".toList Role.Overview 1 = "Foo:Overview_1".toList ∧
    keaFileDataRead_layerName (":".toList ++ composeName "Foo".toList Role.Overview 1
        ++ ":Descriptor_Table:#Bin_Function#".toList) = some "Foo".toList ∧
    "Foo".toList ≠ "Foo:Mask".toList ∧ "Foo".toList ≠ "Foo:Overview_1".toList := by
  decide

/-- Claim C12, as amended. For every base name without a colon, every role and every
overview level, the decoding of `keaFileDataRead` and of `keaFileDataWrite` on the path
`:` ++ composeName(base, role, level) ++ `:Descriptor_Table:#Bin_Function#` extracts
the base name with its spaces turned into underscores, that is the name composed for
the role Real, whatever the role is: the base name is recovered, the role is not. -/
theorem compose_decode_base (base : Str) (role : Role) (level : Nat) (hbase : ':' ∉ base) :
    keaFileDataRead_layerName (":".toList ++ composeName base role level
        ++ ":Descriptor_Table:#Bin_Function#".toList)
      = some (composeName base Role.Real level) ∧
    keaFileDataWrite_layerName (":".toList ++ composeName base role level
        ++ ":Descriptor_Table:#Bin_Function#".toList)
      = some (composeName base Role.Real level) := by
  obtain ⟨rest, hform, hrest⟩ := composeName_form base role level
  have hn : ':' ∉ composeName base Role.Real level := map_underscore_no_colon hbase
  have hshape : ":".toList ++ composeName base role level
        ++ ":Descriptor_Table:#Bin_Function#".toList
      = ':' :: composeName base Role.Real level ++ rest
          ++ ':' :: "Descriptor_Table".toList ++ ':' :: "#Bin_Function#".toList := by
    have : ":Descriptor_Table:#Bin_Function#".toList
        = ':' :: "Descriptor_Table".toList ++ ':' :: "#Bin_Function#".toList := by decide
    rw [this, hform]
    simp
  rw [write_layerName_eq_read, hshape]
  exact ⟨read_layerName_first_segment ':' _ rest hn hrest,
    read_layerName_first_segment ':' _ rest hn hrest⟩

/-- Witness of claim C12 as amended: base name `My Band`, role OverviewMask, level 2. -/
theorem compose_decode_base_witness :
    ':' ∉ "My Band".toList ∧
    keaFileDataRead_layerName (":".toList ++ composeName "My Band".toList Role.OverviewMask 2
        ++ ":Descriptor_Table:#Bin_Function#".toList) = some "My_Band".toList ∧
    keaFileDataWrite_layerName (":".toList ++ composeName "My Band".toList Role.OverviewMask 2
        ++ ":Descriptor_Table:#Bin_Function#".toList) = some "My_Band".toList :=
  ⟨by decide, compose_decode_base "My Band".toList Role.OverviewMask 2 (by decide)⟩

/-! ## Properties of `keaFileDataRead` and `keaFileDataWrite` -/

/-- Claim C13. For every session and every path: when the path decoding yields no match,
or `keaLayerOpen` finds no layer of the extracted name, or the layer found has no bin
function, `keaFileDataRead` returns status 0 with a null blob, size 0, a null dictionary
and a null type tag; and for a path that yields no match the result is the same on every
session. -/
theorem dataRead_absent (tk : HostToolkit) (lm : LayerModule) (store : BinFunctionStore)
    (f : KEA_File) (path : Str) :
    ((keaFileDataRead_layerName path = none ∨
      (∃ n, keaFileDataRead_layerName path = some n ∧ lm.keaLayerOpen f n = none) ∨
      (∃ n L, keaFileDataRead_layerName path = some n ∧ lm.keaLayerOpen f n = some L ∧
        lm.keaLayerGetHistoBinFunction store L = none)) →
      keaFileDataRead tk lm store f path
        = { rCode := 0, MIFDataObject := none, MIFDataSize := 0,
            MIFDataDictionary := none, MIFDataType := none }) ∧
    (keaFileDataRead_layerName path = none →
      ∀ f' : KEA_File,
        keaFileDataRead tk lm store f' path = keaFileDataRead tk lm store f path) := by
  constructor
  · rintro (h | ⟨n, h1, h2⟩ | ⟨n, L, h1, h2, h3⟩)
    · simp only [keaFileDataRead, h]
      rfl
    · simp only [keaFileDataRead, h1, h2]
      rfl
    · simp only [keaFileDataRead, h1, h2, h3]
      rfl
  · intro h f'
    simp only [keaFileDataRead, h]

/-- Witness of claim C13: in the session of `sampleIO` with no bin function held, the
layer `Band_1` resolves and reading its bin function path gives the empty result; so
does a malformed path. -/
theorem dataRead_absent_witness :
    keaFileDataRead sampleToolkit specLayerModule emptyStore sampleSession
        ":Band_1:Descriptor_Table:#Bin_Function#".toList
      = { rCode := 0, MIFDataObject := none, MIFDataSize := 0,
          MIFDataDictionary := none, MIFDataType := none } ∧
    keaFileDataRead sampleToolkit specLayerModule emptyStore sampleSession
        ":Foo:Something_Else#".toList
      = { rCode := 0, MIFDataObject := none, MIFDataSize := 0,
          MIFDataDictionary := none, MIFDataType := none } :=
  ⟨(dataRead_absent sampleToolkit specLayerModule emptyStore sampleSession
      ":Band_1:Descriptor_Table:#Bin_Function#".toList).1
      (Or.inr (Or.inr ⟨"Band_1".toList, realLayer sampleIO 1, by decide, by decide, rfl⟩)),
   (dataRead_absent sampleToolkit specLayerModule emptyStore sampleSession
      ":Foo:Something_Else#".toList).1 (Or.inl (by decide))⟩

/-- Claim C14, counterexample. With the toolkit `leakyToolkit` the path matches, the
layer `Band_1` resolves and both conversions go through, yet `keaFileDataWrite` returns
-1, because releasing the intermediate object reports an error; the bin function has by
then been stored against the layer. -/
theorem dataWrite_status_counterexample :
    keaFileDataWrite_layerName ":Band_1:Descriptor_Table:#Bin_Function#".toList
      = some "Band_1".toList ∧
    specLayerModule.keaLayerOpen sampleSession "Band_1".toList
      = some (realLayer sampleIO 1) ∧
    (leakyToolkit.emif_MIFableObjectConvertFromMIF (some [1, 2, 3]) (some "d".toList)
        (some "t".toList)).bind leakyToolkit.edsc_BinFunctionConvertFromMIFable
      = some { contents := [1, 2, 3] } ∧
    (keaFileDataWrite leakyToolkit specLayerModule emptyStore sampleSession
        ":Band_1:Descriptor_Table:#Bin_Function#".toList (some [1, 2, 3]) 3
        (some "d".toList) (some "t".toList)).1 = -1 ∧
    (keaFileDataWrite leakyToolkit specLayerModule emptyStore sampleSession
        ":Band_1:Descriptor_Table:#Bin_Function#".toList (some [1, 2, 3]) 3
        (some "d".toList) (some "t".toList)).2 (realLayer sampleIO 1)
      = some { contents := [1, 2, 3] } := by
  decide

/-- Claim C14, as amended. For every session and every path, `keaFileDataWrite` returns
0 if and only if the path matches, `keaLayerOpen` finds the layer, both conversions from
the interchange form go through and the release of the intermediate object reports no
error; otherwise it returns -1; and whenever parsing, resolution or conversion fails it
returns -1 and leaves the stored bin functions as they were. -/
theorem dataWrite_status (tk : HostToolkit) (lm : LayerModule) (store : BinFunctionStore)
    (f : KEA_File) (path : Str) (obj : Option (List Nat)) (size : Nat)
    (dict type : Option Str) :
    ((keaFileDataWrite tk lm store f path obj size dict type).1 = 0 ↔
      ∃ n L o fn, keaFileDataWrite_layerName path = some n ∧ lm.keaLayerOpen f n = some L ∧
        tk.emif_MIFableObjectConvertFromMIF obj dict type = some o ∧
        tk.edsc_BinFunctionConvertFromMIFable o = some fn ∧ tk.emif_ObjectFree o = true) ∧
    ((keaFileDataWrite tk lm store f path obj size dict type).1 ≠ 0 →
      (keaFileDataWrite tk lm store f path obj size dict type).1 = -1) ∧
    ((¬ ∃ n L o fn, keaFileDataWrite_layerName path = some n ∧ lm.keaLayerOpen f n = some L ∧
        tk.emif_MIFableObjectConvertFromMIF obj dict type = some o ∧
        tk.edsc_BinFunctionConvertFromMIFable o = some fn) →
      keaFileDataWrite tk lm store f path obj size dict type = (-1, store)) := by
  unfold keaFileDataWrite
  cases h1 : keaFileDataWrite_layerName path with
  | none => simp
  | some n =>
    cases h2 : lm.keaLayerOpen f n with
    | none => simp [h2]
    | some L =>
      cases h3 : tk.emif_MIFableObjectConvertFromMIF obj dict type with
      | none => simp [HANDLE_ERR, h2, h3]
      | some o =>
        cases h4 : tk.edsc_BinFunctionConvertFromMIFable o with
        | none => simp [HANDLE_ERR, h2, h3, h4]
        | some fn =>
          cases h5 : tk.emif_ObjectFree o <;> simp [HANDLE_ERR, h2, h3, h4, h5]

/-- Witness of claim C14 as amended: writing to a path that does not match stores
nothing and returns -1. -/
theorem dataWrite_status_witness :
    keaFileDataWrite sampleToolkit specLayerModule emptyStore sampleSession
        ":Foo:Something_Else#".toList (some [1, 2, 3]) 3 (some "d".toList)
        (some "t".toList) = (-1, emptyStore) :=
  (dataWrite_status sampleToolkit specLayerModule emptyStore sampleSession
    ":Foo:Something_Else#".toList (some [1, 2, 3]) 3 (some "d".toList)
    (some "t".toList)).2.2 (by
      rintro ⟨n, L, o, fn, h, _⟩
      have hn : keaFileDataWrite_layerName ":Foo:Something_Else#".toList = none := by decide
      rw [hn] at h
      cases h)

/-! ## Open: failing queries, mask data, names and element types -/

/-- When a query that open makes is not answered, open returns no session. -/
theorem open_none_of_query_failure (env : KEAEnv) (fileName : Str) (fileType : Int)
    (mode : FileMode) (io : KEAImageIO) (hmode : EFIO_MODE_CREATE mode = false)
    (hio : openContainer env fileName mode = some io) (hfail : ¬ QueriesSucceed io) :
    (keaFileTitleIdentifyAndOpen env fileName fileType (some mode)).1 = none := by
  cases hopen : (keaFileTitleIdentifyAndOpen env fileName fileType (some mode)).1 with
  | none => rfl
  | some f =>
    obtain ⟨io', hio', hq, _, _⟩ := open_some_inv hmode hopen
    rw [hio] at hio'
    cases hio'
    exact absurd hq hfail

/-- For a supported band of a container whose queries are answered, the queries of the
loop body are answered. -/
theorem bandQueries_of_supported {io : KEAImageIO} (hq : QueriesSucceed io) {b : Nat}
    (hb : b ∈ supportedBands io) :
    (io.getImageBandDataType b).isSome = true ∧ BandQueriesSucceed io b := by
  obtain ⟨h1, h2, h3⟩ := mem_supportedBands.mp hb
  have := hq.2.2 (b - 1) (by unfold bandCount at h2; omega)
  have hb1 : b - 1 + 1 = b := by omega
  rw [hb1] at this
  exact ⟨this.1, this.2 h3⟩

/-- Claim C15. For a container recognised as a KEA file and opened in read or read-write
mode: if any query that open makes (spatial information, band count, or a query of the
band, mask and overview walk at any band and any overview level) raises an error,
`keaFileTitleIdentifyAndOpen` returns no session (`NULL`, with `*fileType` set to 0). -/
theorem open_query_failure_returns_null (env : KEAEnv) (fileName : Str) (fileType : Int)
    (mode : FileMode) (io : KEAImageIO) (hmode : EFIO_MODE_CREATE mode = false)
    (hkea : env.isKEAImage fileName = some true)
    (hio : openContainer env fileName mode = some io) (hfail : ¬ QueriesSucceed io) :
    keaFileTitleIdentifyAndOpen env fileName fileType (some mode) = (none, 0) := by
  have h1 := open_none_of_query_failure env fileName fileType mode io hmode hio hfail
  unfold keaFileTitleIdentifyAndOpen at h1 ⊢
  simp only [hmode, hkea, Bool.false_eq_true, ↓reduceIte] at h1 ⊢
  rw [h1]

/-- Witness of claim C15: in `brokenOverviewIO` the block size query of overview 1 of
band 1 raises after the Real and Mask descriptors of band 1 have been appended. -/
theorem open_query_failure_returns_null_witness :
    keaFileTitleIdentifyAndOpen (envOf brokenOverviewIO) "a.kea".toList 1
      (some FileMode.readOnly) = (none, 0) :=
  open_query_failure_returns_null (envOf brokenOverviewIO) "a.kea".toList 1
    FileMode.readOnly brokenOverviewIO rfl rfl rfl
    (by unfold QueriesSucceed BandQueriesSucceed; decide)

/-- Claim C16, counterexample. In `noMaskQueryIO` band 1 is of a supported type and its
mask query raises; open returns no session instead of a session whose Mask descriptor
has `bMaskIsReal = false`. -/
theorem open_mask_query_failure_counterexample :
    is64BitInt noMaskQueryIO 1 = false ∧ noMaskQueryIO.maskCreated 1 = none ∧
    openContainer (envOf noMaskQueryIO) "a.kea".toList FileMode.readOnly
      = some noMaskQueryIO ∧
    (keaFileTitleIdentifyAndOpen (envOf noMaskQueryIO) "a.kea".toList 1
      (some FileMode.readOnly)).1 = none :=
  ⟨by decide, rfl, rfl, rfl⟩

/-- Claim C16, as amended. For every supported band the Mask descriptor built by open has
`bMaskIsReal` equal to what the container's mask query reports; and when the mask query
raises for a supported band, open returns no session. -/
theorem open_mask_has_data (env : KEAEnv) (fileName : Str) (fileType : Int)
    (mode : FileMode) (io : KEAImageIO) (hmode : EFIO_MODE_CREATE mode = false)
    (hkea : env.isKEAImage fileName = some true)
    (hio : openContainer env fileName mode = some io) :
    (QueriesSucceed io →
      ∃ f, (keaFileTitleIdentifyAndOpen env fileName fileType (some mode)).1 = some f ∧
        (∀ b ∈ supportedBands io, maskLayer io b ∈ f.aLayers) ∧
        ∀ L ∈ f.aLayers, L.role = Role.Mask →
          io.maskCreated L.nBand = some L.bMaskIsReal) ∧
    (∀ b, 1 ≤ b → b ≤ bandCount io → is64BitInt io b = false → io.maskCreated b = none →
      (keaFileTitleIdentifyAndOpen env fileName fileType (some mode)).1 = none) := by
  constructor
  · intro hq
    obtain ⟨f, hf, _, hcat⟩ := open_catalog env fileName fileType mode io hmode hkea hio hq
    refine ⟨f, hf, ?_, ?_⟩
    · intro b hb
      rw [hcat]
      exact mem_catalog.mpr ⟨b, hb, mem_bandBlock.mpr (Or.inr (Or.inl rfl))⟩
    · intro L hL hrole
      rw [hcat] at hL
      obtain ⟨b, hb, hLb⟩ := mem_catalog.mp hL
      obtain ⟨m, hm⟩ := Option.isSome_iff_exists.mp (bandQueries_of_supported hq hb).2.2.2.2.1
      rcases mem_bandBlock.mp hLb with h | h | ⟨o, _, h | h⟩ <;> subst h
      · simp [KEA_Layer.role, realLayer] at hrole
      · simp [maskLayer, hm]
      · simp [KEA_Layer.role, overviewLayer] at hrole
      · simp [KEA_Layer.role, overviewMaskLayer] at hrole
  · intro b hb1 hb2 hs hnone
    apply open_none_of_query_failure env fileName fileType mode io hmode hio
    intro hq
    have := (bandQueries_of_supported hq (mem_supportedBands.mpr ⟨hb1, hb2, hs⟩)).2.2.2.2.1
    rw [hnone] at this
    cases this

/-- Witness of claim C16 as amended: the mask of band 1 of `sampleIO` is stored, and
the Mask descriptor says so. -/
theorem open_mask_has_data_witness :
    ∃ f, (keaFileTitleIdentifyAndOpen (envOf sampleIO) "a.kea".toList 1
        (some FileMode.readOnly)).1 = some f ∧
      (∀ b ∈ supportedBands sampleIO, maskLayer sampleIO b ∈ f.aLayers) ∧
      ∀ L ∈ f.aLayers, L.role = Role.Mask →
        sampleIO.maskCreated L.nBand = some L.bMaskIsReal :=
  (open_mask_has_data (envOf sampleIO) "a.kea".toList 1 FileMode.readOnly sampleIO
    rfl rfl rfl).1 (by unfold QueriesSucceed BandQueriesSucceed; decide)

theorem decimal_eq_fmt_d (k : Nat) : decimal k = fmt_d k := rfl

theorem digitChar_ne_space (k : Nat) (h : k < 10) : Nat.digitChar k ≠ ' ' := by
  interval_cases k <;> decide

theorem toDigitsCore_no_space (fuel : Nat) : ∀ (n : Nat) (ds : Str), ' ' ∉ ds →
    ' ' ∉ Nat.toDigitsCore 10 fuel n ds := by
  induction fuel with
  | zero => intro n ds h; simpa [Nat.toDigitsCore] using h
  | succ fuel ih =>
    intro n ds h
    unfold Nat.toDigitsCore
    simp only
    have hmod : n % 10 < 10 := Nat.mod_lt _ (by decide)
    have hc : ' ' ∉ Nat.digitChar (n % 10) :: ds := by
      rw [List.mem_cons, not_or]
      exact ⟨fun e => digitChar_ne_space _ hmod e.symm, h⟩
    split
    · exact hc
    · exact ih _ _ hc

/-- The decimal rendering of an overview level holds no space. -/
theorem fmt_d_no_space (k : Nat) : ' ' ∉ fmt_d k :=
  toDigitsCore_no_space _ _ _ (by simp)

theorem replaceChar_no_space (d : Str) : ' ' ∉ replaceChar ' ' '_' d := by
  induction d with
  | nil => simp [replaceChar]
  | cons x xs ih =>
    unfold replaceChar at ih ⊢
    rw [List.map_cons, List.mem_cons, not_or]
    refine ⟨?_, ih⟩
    split
    · decide
    · rename_i hx
      exact fun e => hx e.symm

/-- The names of the descriptors of a band whose description is `d`, as composed by the
specification, and the absence of spaces in them. -/
theorem bandBlock_names {io : KEAImageIO} {b : Nat} {d : Str} {L : KEA_Layer}
    (hd : io.getImageBandDescription b = some d) (hL : L ∈ bandBlock io b) :
    L.sName = composeName d L.role L.nOverview ∧ ' ' ∉ L.sName := by
  have hname : bandName io b = replaceChar ' ' '_' d := by simp [bandName, hd]
  have hsp := replaceChar_no_space d
  have hM : ' ' ∉ ":Mask".toList := by decide
  have hO : ' ' ∉ ":Overview_".toList := by decide
  rcases mem_bandBlock.mp hL with h | h | ⟨o, _, h | h⟩ <;> subst h
  · exact ⟨hname, by rw [realLayer, hname]; exact hsp⟩
  · refine ⟨by simp only [maskLayer, hname]; rfl, ?_⟩
    simp only [maskLayer, hname, List.mem_append, not_or]
    exact ⟨hsp, hM⟩
  · refine ⟨by simp only [overviewLayer, hname]; rfl, ?_⟩
    simp only [overviewLayer, hname, List.mem_append, not_or]
    exact ⟨⟨hsp, hO⟩, fmt_d_no_space _⟩
  · refine ⟨by simp only [overviewMaskLayer, hname]; rfl, ?_⟩
    simp only [overviewMaskLayer, hname, List.mem_append, not_or]
    exact ⟨⟨⟨hsp, hO⟩, fmt_d_no_space _⟩, hM⟩

/-- Claim C17. With every container query answered, each descriptor that open builds
for a band with description `d` carries the name the specification composes from `d`
with its spaces turned into underscores: `d'` for Real, `d':Mask` for Mask,
`d':Overview_k` for the Overview of level `k` and `d':Overview_k:Mask` for its mask; and
no descriptor name holds a space. -/
theorem open_names_composed (env : KEAEnv) (fileName : Str) (fileType : Int)
    (mode : FileMode) (io : KEAImageIO) (hmode : EFIO_MODE_CREATE mode = false)
    (hkea : env.isKEAImage fileName = some true)
    (hio : openContainer env fileName mode = some io) (hq : QueriesSucceed io) :
    ∃ f, (keaFileTitleIdentifyAndOpen env fileName fileType (some mode)).1 = some f ∧
      ∀ L ∈ f.aLayers,
        (∃ d, io.getImageBandDescription L.nBand = some d ∧
          L.sName = composeName d L.role L.nOverview) ∧
        ' ' ∉ L.sName := by
  obtain ⟨f, hf, _, hcat⟩ := open_catalog env fileName fileType mode io hmode hkea hio hq
  refine ⟨f, hf, fun L hL => ?_⟩
  rw [hcat] at hL
  obtain ⟨b, hb, hLb⟩ := mem_catalog.mp hL
  obtain ⟨d, hd⟩ := Option.isSome_iff_exists.mp (bandQueries_of_supported hq hb).2.2.1
  have hnb := nBand_of_mem_bandBlock hLb
  obtain ⟨h1, h2⟩ := bandBlock_names hd hLb
  exact ⟨⟨d, by rw [hnb]; exact hd, h1⟩, h2⟩

/-- Witness of claim C17 on the container `sampleIO`, whose band 1 is described as
`Band 1`. -/
theorem open_names_composed_witness :
    ∃ f, (keaFileTitleIdentifyAndOpen (envOf sampleIO) "a.kea".toList 1
        (some FileMode.readOnly)).1 = some f ∧
      ∀ L ∈ f.aLayers,
        (∃ d, sampleIO.getImageBandDescription L.nBand = some d ∧
          L.sName = composeName d L.role L.nOverview) ∧
        ' ' ∉ L.sName :=
  open_names_composed (envOf sampleIO) "a.kea".toList 1 FileMode.readOnly sampleIO
    rfl rfl rfl (by unfold QueriesSucceed BandQueriesSucceed; decide)

/-- Claim C18. In every session built by open, every descriptor flagged as a mask has the
element type 8 bit unsigned, and every other descriptor (Real or Overview) has the
element type that the container reports for its band. -/
theorem open_element_types (env : KEAEnv) (fileName : Str) (fileType : Int)
    (mode : FileMode) (io : KEAImageIO) (f : KEA_File)
    (hmode : EFIO_MODE_CREATE mode = false)
    (hcont : openContainer env fileName mode = some io)
    (hopen : (keaFileTitleIdentifyAndOpen env fileName fileType (some mode)).1 = some f) :
    ∀ L ∈ f.aLayers,
      (L.bIsMask = true → L.eKEAType = KEADataType.kea_8uint) ∧
      (L.bIsMask = false → io.getImageBandDataType L.nBand = some L.eKEAType) := by
  obtain ⟨io', hio', hq, _, hcat⟩ := open_some_inv hmode hopen
  rw [hcont] at hio'
  cases hio'
  intro L hL
  rw [hcat] at hL
  obtain ⟨b, hb, hLb⟩ := mem_catalog.mp hL
  obtain ⟨ty, hty⟩ := Option.isSome_iff_exists.mp (bandQueries_of_supported hq hb).1
  rcases mem_bandBlock.mp hLb with h | h | ⟨o, _, h | h⟩ <;> subst h <;>
    simp [realLayer, maskLayer, overviewLayer, overviewMaskLayer, hty]

/-- Witness of claim C18 on the session of `sampleIO`: the mask of overview 1 of band 1
is 8 bit unsigned, and the overview has the type reported for band 1. -/
theorem open_element_types_witness :
    (overviewMaskLayer sampleIO 1 1).eKEAType = KEADataType.kea_8uint ∧
    sampleIO.getImageBandDataType (overviewLayer sampleIO 1 1).nBand
      = some (overviewLayer sampleIO 1 1).eKEAType :=
  ⟨(open_element_types (envOf sampleIO) "a.kea".toList 1 FileMode.readOnly sampleIO
      sampleSession rfl rfl rfl (overviewMaskLayer sampleIO 1 1) (by decide)).1 rfl,
   (open_element_types (envOf sampleIO) "a.kea".toList 1 FileMode.readOnly sampleIO
      sampleSession rfl rfl rfl (overviewLayer sampleIO 1 1) (by decide)).2 rfl⟩

/-! ## What rename leaves alone -/

theorem renameLayer_withoutName (w : Nat → Str → Bool) (old new : Str) (L : KEA_Layer) :
    withoutName (renameLayer w old new L) = withoutName L := by
  unfold renameLayer
  split
  · split <;> rfl
  · split <;> rfl

theorem sameButNames_refl (f : KEA_File) : SameButNames f f :=
  ⟨rfl, rfl, rfl, rfl, rfl, rfl, rfl, rfl⟩

theorem sameButNames_trans {f g h : KEA_File} (h1 : SameButNames f g)
    (h2 : SameButNames g h) : SameButNames f h := by
  obtain ⟨a1, a2, a3, a4, a5, a6, a7, a8⟩ := h1
  obtain ⟨b1, b2, b3, b4, b5, b6, b7, b8⟩ := h2
  exact ⟨b1.trans a1, b2.trans a2, b3.trans a3, b4.trans a4, b5.trans a5, b6.trans a6,
    b7.trans a7, b8.trans a8⟩

theorem namesSet_single_frame {f f' : KEA_File} {old new : Str} {rc : Int}
    (h : keaFileLayerNamesSet f [old] [new] = some (rc, f')) : SameButNames f f' := by
  obtain ⟨_, hls, _, _⟩ := namesSet_single_spec h
  rw [namesSet_single_eq] at h
  cases hr : renameLayers old new f.pImageIO f.aLayers with
  | none => simp [hr] at h
  | some r =>
    obtain ⟨p, ls⟩ := r
    simp only [hr, Option.some.injEq, Prod.mk.injEq] at h
    obtain ⟨_, hf⟩ := h
    refine ⟨?_, ?_, ?_, ?_, ?_, ?_, ?_, ?_⟩
    · rw [hls, List.map_map]
      apply List.map_congr_left
      intro L _
      exact renameLayer_withoutName _ old new L
    all_goals (rw [← hf])

/-- A call of `keaFileLayerNamesSet` that returns has status 0, has changed nothing but
names and the container, and leaves a container bound when one was. -/
theorem namesSet_frame (olds : List Str) :
    ∀ (news : List Str) (f : KEA_File) (r : Int × KEA_File),
      keaFileLayerNamesSet f olds news = some r →
        r.1 = 0 ∧ SameButNames f r.2 ∧ (KEA_File.pImageIO r.2).isSome = f.pImageIO.isSome := by
  induction olds with
  | nil =>
    intro news f r h
    unfold keaFileLayerNamesSet at h
    simp only [List.zip_nil_left, renameEntries, Option.some.injEq] at h
    subst h
    exact ⟨rfl, sameButNames_refl f, rfl⟩
  | cons o os ih =>
    intro news f r h
    cases news with
    | nil =>
      unfold keaFileLayerNamesSet at h
      simp only [List.zip_nil_right, renameEntries, Option.some.injEq] at h
      subst h
      exact ⟨rfl, sameButNames_refl f, rfl⟩
    | cons n ns =>
      rw [namesSet_cons] at h
      cases hs : keaFileLayerNamesSet f [o] [n] with
      | none => simp [hs] at h
      | some r1 =>
        obtain ⟨rc, f1⟩ := r1
        simp only [hs] at h
        obtain ⟨h0, hsame, hsome⟩ := ih ns f1 r h
        obtain ⟨_, _, _, hsome1⟩ := namesSet_single_spec hs
        exact ⟨h0, sameButNames_trans (namesSet_single_frame hs) hsame, hsome.trans hsome1⟩

/-- With a container bound, a call of `keaFileLayerNamesSet` returns. -/
theorem namesSet_total (olds : List Str) :
    ∀ (news : List Str) (f : KEA_File), f.pImageIO.isSome = true →
      ∃ f', keaFileLayerNamesSet f olds news = some (0, f') := by
  induction olds with
  | nil =>
    intro news f _
    exact ⟨_, rfl⟩
  | cons o os ih =>
    intro news f hio
    cases news with
    | nil => exact ⟨_, rfl⟩
    | cons n ns =>
      obtain ⟨f1, hf1⟩ := namesSet_single_total f o n hio
      obtain ⟨_, _, _, hsome1⟩ := namesSet_single_spec hf1
      obtain ⟨f', hf'⟩ := ih ns f1 (hsome1.trans hio)
      exact ⟨f', by rw [namesSet_cons, hf1]; exact hf'⟩

/-- Claim C20. A call of `keaFileLayerNamesSet` returns whenever a container is bound, and
when it returns it has changed nothing but descriptor names (and the container): the
catalog has the same length, each descriptor keeps its band index, role flags, overview
level, `bMaskIsReal`, element type, width, height and block size at its position, and the
session keeps its modification time and projection. -/
theorem rename_changes_only_names (f : KEA_File) (olds news : List Str) :
    (f.pImageIO.isSome = true → ∃ f', keaFileLayerNamesSet f olds news = some (0, f')) ∧
    ∀ (rc : Int) (f' : KEA_File), keaFileLayerNamesSet f olds news = some (rc, f') →
      f'.aLayers.length = f.aLayers.length ∧
      (∀ (i : Nat) (L L' : KEA_Layer), f.aLayers[i]? = some L → f'.aLayers[i]? = some L' →
        L'.nBand = L.nBand ∧ L'.bIsOverview = L.bIsOverview ∧ L'.bIsMask = L.bIsMask ∧
        L'.nOverview = L.nOverview ∧ L'.bMaskIsReal = L.bMaskIsReal ∧
        L'.eKEAType = L.eKEAType ∧ L'.nXSize = L.nXSize ∧ L'.nYSize = L.nYSize ∧
        L'.nBlockSize = L.nBlockSize) ∧
      f'.modTime = f.modTime ∧ f'.pProj = f.pProj ∧ f'.sProjName = f.sProjName ∧
      f'.sUnits = f.sUnits := by
  refine ⟨namesSet_total olds news f, fun rc f' h => ?_⟩
  obtain ⟨_, ⟨hmap, _, _, hproj, hpn, hu, hmt, _⟩, _⟩ := namesSet_frame olds news f (rc, f') h
  simp only at hmap hproj hpn hu hmt
  refine ⟨?_, ?_, hmt, hproj, hpn, hu⟩
  · have := congrArg List.length hmap
    simpa using this
  · intro i L L' hL hL'
    have hi := congrArg (fun l => l[i]?) hmap
    simp only [List.getElem?_map, hL, hL', Option.map_some', Option.some.injEq] at hi
    have hfield : ∀ {α : Type} (g : KEA_Layer → α),
        (∀ M, g (withoutName M) = g M) → g L' = g L := by
      intro α g hg
      rw [← hg L', ← hg L, hi]
    exact ⟨hfield (·.nBand) (fun _ => rfl), hfield (·.bIsOverview) (fun _ => rfl),
      hfield (·.bIsMask) (fun _ => rfl), hfield (·.nOverview) (fun _ => rfl),
      hfield (·.bMaskIsReal) (fun _ => rfl), hfield (·.eKEAType) (fun _ => rfl),
      hfield (·.nXSize) (fun _ => rfl), hfield (·.nYSize) (fun _ => rfl),
      hfield (·.nBlockSize) (fun _ => rfl)⟩

/-- Witness of claim C20: a batch of two renames on the session of `sampleIO` keeps the
four descriptors and the modification time. -/
theorem rename_changes_only_names_witness :
    ∃ f', keaFileLayerNamesSet sampleSession ["Band_1".toList, "B".toList]
        ["B".toList, "C".toList] = some (0, f') ∧
      f'.aLayers.length = sampleSession.aLayers.length ∧
      f'.modTime = sampleSession.modTime ∧ f'.pProj = sampleSession.pProj := by
  obtain ⟨h1, h2⟩ := rename_changes_only_names sampleSession
    ["Band_1".toList, "B".toList] ["B".toList, "C".toList]
  obtain ⟨f', hf'⟩ := h1 rfl
  obtain ⟨hlen, _, hmt, hproj, _⟩ := h2 0 f' hf'
  exact ⟨f', hf', hlen, hmt, hproj⟩

/-! ## The mask data flag in reachable sessions -/

theorem catalog_maskIsReal {io : KEAImageIO} (hq : QueriesSucceed io) {L : KEA_Layer}
    (hL : L ∈ catalog io) (hreal : L.bMaskIsReal = true) :
    L.bIsMask = true ∧ L.bIsOverview = false ∧ io.maskCreated L.nBand = some true := by
  obtain ⟨b, hb, hLb⟩ := mem_catalog.mp hL
  obtain ⟨m, hm⟩ := Option.isSome_iff_exists.mp (bandQueries_of_supported hq hb).2.2.2.2.1
  rcases mem_bandBlock.mp hLb with h | h | ⟨o, _, h | h⟩ <;> subst h
  · simp [realLayer] at hreal
  · simp only [maskLayer, hm, Option.getD_some] at hreal
    subst hreal
    exact ⟨rfl, rfl, hm⟩
  · simp [overviewLayer] at hreal
  · simp [overviewMaskLayer] at hreal

/-- In every session reached from open by renames, a descriptor with `bMaskIsReal` set is
a Mask descriptor of a band whose mask the container reported as stored. -/
theorem reachable_maskIsReal (io : KEAImageIO) (f : KEA_File) (h : Reachable io f) :
    ∀ L ∈ f.aLayers, L.bMaskIsReal = true →
      L.bIsMask = true ∧ L.bIsOverview = false ∧ io.maskCreated L.nBand = some true := by
  induction h with
  | opened env fileName fileType mode f hmode hcont hopen =>
    obtain ⟨io', hio', hq, _, hcat⟩ := open_some_inv hmode hopen
    rw [hcont] at hio'
    cases hio'
    intro L hL hreal
    rw [hcat] at hL
    exact catalog_maskIsReal hq hL hreal
  | renamed f olds news rc f' _ _ hcall ih =>
    intro L' hL' hreal
    obtain ⟨_, ⟨hmap, _⟩, _⟩ := namesSet_frame olds news f (rc, f') hcall
    have hmem : withoutName L' ∈ f.aLayers.map withoutName := by
      rw [← hmap]
      exact List.mem_map_of_mem _ hL'
    obtain ⟨L, hL, hLL'⟩ := List.mem_map.mp hmem
    have h1 : L.bMaskIsReal = L'.bMaskIsReal :=
      congrArg (fun M => M.bMaskIsReal) hLL'
    have h2 : L.bIsMask = L'.bIsMask :=
      congrArg (fun M => M.bIsMask) hLL'
    have h3 : L.bIsOverview = L'.bIsOverview :=
      congrArg (fun M => M.bIsOverview) hLL'
    have h4 : L.nBand = L'.nBand :=
      congrArg (fun M => M.nBand) hLL'
    have := ih L hL (h1.trans hreal)
    rw [h2, h3, h4] at this
    exact this

/-- Claim C19. In every session reached from `keaFileTitleIdentifyAndOpen` by calls of
`keaFileLayerNamesSet`, `bMaskIsReal` is set only for a descriptor of role Mask (mask
flag set, overview flag clear) whose band the container reported as having a stored
mask; it is clear for every Real, Overview and OverviewMask descriptor. -/
theorem maskHasData_only_for_stored_masks (io : KEAImageIO) (f : KEA_File)
    (h : Reachable io f) (L : KEA_Layer) (hL : L ∈ f.aLayers) :
    (L.bMaskIsReal = true →
      L.bIsMask = true ∧ L.bIsOverview = false ∧ io.maskCreated L.nBand = some true) ∧
    (L.role ≠ Role.Mask → L.bMaskIsReal = false) := by
  have hmain := reachable_maskIsReal io f h L hL
  refine ⟨hmain, fun hrole => ?_⟩
  cases hreal : L.bMaskIsReal with
  | false => rfl
  | true =>
    obtain ⟨h1, h2, _⟩ := hmain hreal
    exact absurd (by simp [KEA_Layer.role, h1, h2]) hrole

/-- Witness of claim C19: after `Band_1` is renamed to `B` in the session of `sampleIO`,
the Mask descriptor `B:Mask` has `bMaskIsReal` set and band 1 has a stored mask. -/
theorem maskHasData_only_for_stored_masks_witness :
    renamedMask.bMaskIsReal = true ∧ renamedMask.bIsMask = true ∧
    renamedMask.bIsOverview = false ∧ sampleIO.maskCreated renamedMask.nBand = some true :=
  ⟨rfl, (maskHasData_only_for_stored_masks sampleIO
      (afterRename sampleSession "Band_1".toList "B".toList)
      (Reachable.renamed sampleSession ["Band_1".toList] ["B".toList] 0 _
        (Reachable.opened (envOf sampleIO) "a.kea".toList 1 FileMode.readOnly
          sampleSession rfl rfl rfl) rfl rfl)
      renamedMask (by decide)).1 rfl⟩

/-! ## The two copies of the path decoding -/

/-- Claim C21. The path decoding written out in `keaFileDataRead` and the copy written
out in `keaFileDataWrite` are the same function: on every path both reject it or both
accept it with the same layer name, so that `keaLayerOpen` is asked for the same layer
when reading and when writing. -/
theorem read_write_decoding_agree (path : Str) :
    keaFileDataWrite_layerName path = keaFileDataRead_layerName path ∧
    (keaFileDataRead_layerName path = none ↔ keaFileDataWrite_layerName path = none) ∧
    (∀ n, keaFileDataRead_layerName path = some n ↔
      keaFileDataWrite_layerName path = some n) ∧
    ∀ (lm : LayerModule) (f : KEA_File),
      (keaFileDataRead_layerName path).bind (lm.keaLayerOpen f)
        = (keaFileDataWrite_layerName path).bind (lm.keaLayerOpen f) := by
  have h := write_layerName_eq_read path
  refine ⟨h, ?_, ?_, ?_⟩
  · rw [h]
  · intro n
    rw [h]
  · intro lm f
    rw [h]

/-! ## Rename followed by the reverse rename -/

/-- The rename pass `A -> B` followed by the pass `B -> A`, with every container update
going through, gives a layer back as it was when `B` was fresh for it. -/
theorem renameLayer_there_and_back (w w' : Nat → Str → Bool) (A B : Str) (L : KEA_Layer)
    (hw : ∀ b s, w b s = true) (hw' : ∀ b s, w' b s = true)
    (hreal : isTopLevel L = true → L.sName ≠ B)
    (hdep : isTopLevel L = false → ¬ (B ++ [':']) <+: L.sName) :
    renameLayer w' B A (renameLayer w A B L) = L := by
  cases htop : isTopLevel L with
  | true =>
    have hno : (L.bIsOverview || L.bIsMask) = false := by
      rw [← Bool.not_eq_true, ← isTopLevel_eq_false_iff, htop]
      simp
    by_cases hA : L.sName = A
    · have h1 : renameLayer w A B L = { L with sName := B } := by
        simp [renameLayer, htop, hA, hw]
      rw [h1]
      have htop' : isTopLevel { L with sName := B } = true := htop
      simp [renameLayer, htop', hw', ← hA]
    · rw [renameLayer_untouched w A B L (fun _ => hA) (fun hf => by simp [htop] at hf)]
      exact renameLayer_untouched w' B A L hreal hdep
  | false =>
    have hd := (isTopLevel_eq_false_iff L).mp htop
    by_cases hp : (A ++ [':']) <+: L.sName
    · obtain ⟨t, ht⟩ := hp
      have hname : L.sName = A ++ ':' :: t := by
        rw [← ht]
        simp
      have hc : compare0 L.sName (A ++ [':']) = true := (compare0_iff _ _).mpr ⟨t, ht⟩
      have h1 : renameLayer w A B L = { L with sName := B ++ ':' :: t } := by
        simp only [renameLayer, htop, Bool.false_and, Bool.false_eq_true, ↓reduceIte, hd, hc,
          Bool.and_self, replace0]
        rw [hname]
        simp
      rw [h1]
      have htop' : isTopLevel { L with sName := B ++ ':' :: t } = false := htop
      have hd' := (isTopLevel_eq_false_iff { L with sName := B ++ ':' :: t }).mp htop'
      have hc' : compare0 (B ++ ':' :: t) (B ++ [':']) = true :=
        (compare0_iff _ _).mpr ⟨t, by simp⟩
      simp only [renameLayer, htop', Bool.false_and, Bool.false_eq_true, ↓reduceIte, hc',
        replace0]
      simp only at hd'
      simp only [hd', Bool.true_and, ↓reduceIte]
      cases L
      simp only at hname
      simp [hname]
    · rw [(renameLayer_dependent w A B L hd).2 hp]
      exact renameLayer_untouched w' B A L hreal hdep

/-- Claim C23. For every session with a container bound whose updates succeed, and
names `A`, `B` such that no Real descriptor is named `B` and no Mask, Overview or
OverviewMask descriptor has a name starting with `B:`: `keaFileLayerNamesSet(A -> B)`
followed by `keaFileLayerNamesSet(B -> A)` returns status 0 twice and leaves every
descriptor as it was, its original name included. -/
theorem rename_there_and_back (f : KEA_File) (io : KEAImageIO) (A B : Str)
    (hio : f.pImageIO = some io) (hw : ∀ b s, io.descriptionWritable b s = true)
    (hreal : ∀ L ∈ f.aLayers, isTopLevel L = true → L.sName ≠ B)
    (hdep : ∀ L ∈ f.aLayers, isTopLevel L = false → ¬ (B ++ [':']) <+: L.sName) :
    ∃ f1 f2, keaFileLayerNamesSet f [A] [B] = some (0, f1) ∧
      keaFileLayerNamesSet f1 [B] [A] = some (0, f2) ∧ f2.aLayers = f.aLayers := by
  obtain ⟨f1, hf1⟩ := namesSet_single_total f A B (by simp [hio])
  obtain ⟨_, hls1, hw1, hsome1⟩ := namesSet_single_spec hf1
  obtain ⟨f2, hf2⟩ := namesSet_single_total f1 B A (by rw [hsome1]; simp [hio])
  obtain ⟨_, hls2, _, _⟩ := namesSet_single_spec hf2
  refine ⟨f1, f2, hf1, hf2, ?_⟩
  have hwf : ∀ b s, writable f.pImageIO b s = true := by
    intro b s
    rw [hio]
    exact hw b s
  have hwf1 : ∀ b s, writable f1.pImageIO b s = true := by
    intro b s
    rw [hw1]
    exact hwf b s
  rw [hls2, hls1, List.map_map]
  conv_rhs => rw [← List.map_id f.aLayers]
  apply List.map_congr_left
  intro L hL
  exact renameLayer_there_and_back _ _ A B L hwf hwf1 (hreal L hL) (hdep L hL)

/-- Witness of claim C23: `Band_1 -> B -> Band_1` on the session of `sampleIO`. -/
theorem rename_there_and_back_witness :
    ∃ f1 f2, keaFileLayerNamesSet sampleSession ["Band_1".toList] ["B".toList]
        = some (0, f1) ∧
      keaFileLayerNamesSet f1 ["B".toList] ["Band_1".toList] = some (0, f2) ∧
      f2.aLayers = sampleSession.aLayers :=
  rename_there_and_back sampleSession sampleIO "Band_1".toList "B".toList rfl
    (fun _ _ => rfl) (by decide) (by decide)

/-! ## Name consistency under rename -/

theorem roleSuffix_colon (L : KEA_Layer) (h : isTopLevel L = false) :
    ∃ rest, roleSuffix L.role L.nOverview = ':' :: rest := by
  cases h1 : L.bIsOverview <;> cases h2 : L.bIsMask
  · simp [isTopLevel, h1, h2] at h
  · exact ⟨"Mask".toList, by simp [KEA_Layer.role, h1, h2]; rfl⟩
  · exact ⟨"Overview_".toList ++ decimal L.nOverview, by simp [KEA_Layer.role, h1, h2]; rfl⟩
  · exact ⟨"Overview_".toList ++ decimal L.nOverview ++ ":Mask".toList,
      by simp [KEA_Layer.role, h1, h2]; rfl⟩

theorem renameLayer_role (w : Nat → Str → Bool) (old new : Str) (L : KEA_Layer) :
    (renameLayer w old new L).role = L.role ∧
    (renameLayer w old new L).nOverview = L.nOverview := by
  have h := renameLayer_withoutName w old new L
  exact ⟨congrArg (fun M => M.role) h, congrArg (fun M => M.nOverview) h⟩

/-- The catalog built by open is name consistent when band names hold no colon. -/
theorem catalog_consistent {io : KEAImageIO}
    (hcolon : ∀ b ∈ supportedBands io, ':' ∉ bandName io b) :
    NamesConsistent (catalog io) := by
  have hrealName : ∀ R ∈ catalog io, isTopLevel R = true →
      R.sName = bandName io R.nBand ∧ R.nBand ∈ supportedBands io := by
    intro R hR hRtop
    obtain ⟨hb, hform⟩ := catalog_name_form hR
    rcases hform with ⟨_, e⟩ | ⟨hf, _⟩
    · exact ⟨e, hb⟩
    · rw [hRtop] at hf
      cases hf
  constructor
  · intro R hR hRtop
    obtain ⟨e, hb⟩ := hrealName R hR hRtop
    rw [e]
    exact hcolon _ hb
  · intro L hL hLtop
    obtain ⟨b, hb, hLb⟩ := mem_catalog.mp hL
    have hnb := nBand_of_mem_bandBlock hLb
    refine ⟨⟨realLayer io b, mem_catalog.mpr ⟨b, hb, mem_bandBlock.mpr (Or.inl rfl)⟩, rfl,
      hnb.symm⟩, bandName io b, hcolon b hb, ?_, ?_⟩
    · rcases mem_bandBlock.mp hLb with h | h | ⟨o, _, h | h⟩ <;> subst h
      · simp [isTopLevel, realLayer] at hLtop
      · rfl
      · simp only [overviewLayer, List.append_assoc]
        rfl
      · simp only [overviewMaskLayer, List.append_assoc]
        rfl
    · intro R hR hRtop hRb
      rw [(hrealName R hR hRtop).1, hRb, hnb]

/-- One pass of the rename loop with colon-free names and successful container updates
keeps a catalog name consistent. -/
theorem rename_consistent (w : Nat → Str → Bool) (old new : Str) (ls : List KEA_Layer)
    (hw : ∀ b s, w b s = true) (hold : ':' ∉ old) (hnew : ':' ∉ new)
    (h : NamesConsistent ls) : NamesConsistent (ls.map (renameLayer w old new)) := by
  obtain ⟨hA, hB⟩ := h
  have htopName : ∀ R, isTopLevel R = true →
      (renameLayer w old new R).sName = if R.sName = old then new else R.sName := by
    intro R hR
    rw [renameLayer_top w old new R hR]
    simp [hw]
  constructor
  · intro R' hR' hR'top
    obtain ⟨R, hR, rfl⟩ := List.mem_map.mp hR'
    rw [(renameLayer_flags w old new R).1] at hR'top
    rw [htopName R hR'top]
    split
    · exact hnew
    · exact hA R hR hR'top
  · intro L' hL' hL'top
    obtain ⟨L, hL, rfl⟩ := List.mem_map.mp hL'
    rw [(renameLayer_flags w old new L).1] at hL'top
    obtain ⟨⟨R, hR, hRtop, hRb⟩, base, hbase, hname, hall⟩ := hB L hL hL'top
    obtain ⟨rest, hrest⟩ := roleSuffix_colon L hL'top
    rw [hrest] at hname
    have hdep := (isTopLevel_eq_false_iff L).mp hL'top
    obtain ⟨d1, d2⟩ := renameLayer_dependent w old new L hdep
    refine ⟨⟨renameLayer w old new R, List.mem_map_of_mem _ hR, ?_, ?_⟩,
      (if base = old then new else base), ?_, ?_, ?_⟩
    · rw [(renameLayer_flags w old new R).1]
      exact hRtop
    · rw [(renameLayer_flags w old new R).2, (renameLayer_flags w old new L).2]
      exact hRb
    · split
      · exact hnew
      · exact hbase
    · rw [(renameLayer_role w old new L).1, (renameLayer_role w old new L).2, hrest]
      by_cases hb : base = old
      · rw [if_pos hb]
        exact d1 rest (by rw [hname, hb])
      · rw [if_neg hb, d2, hname]
        intro hpre
        rw [hname] at hpre
        exact hb (base_of_colon_start hold hbase hpre).symm
    · intro R' hR' hR'top hR'b
      obtain ⟨R2, hR2, rfl⟩ := List.mem_map.mp hR'
      rw [(renameLayer_flags w old new R2).1] at hR'top
      rw [(renameLayer_flags w old new R2).2, (renameLayer_flags w old new L).2] at hR'b
      rw [htopName R2 hR'top, hall R2 hR2 hR'top hR'b]

/-- A batch of renames with colon-free names and successful container updates keeps the
catalog name consistent and the container as writable as it was. -/
theorem batch_consistent (olds : List Str) :
    ∀ (news : List Str) (f : KEA_File) (r : Int × KEA_File),
      NamesConsistent f.aLayers → (∀ b s, writable f.pImageIO b s = true) →
      (∀ o ∈ olds, ':' ∉ o) → (∀ n ∈ news, ':' ∉ n) →
      keaFileLayerNamesSet f olds news = some r →
        NamesConsistent r.2.aLayers ∧ ∀ b s, writable (KEA_File.pImageIO r.2) b s = true := by
  induction olds with
  | nil =>
    intro news f r hc hw _ _ hcall
    unfold keaFileLayerNamesSet at hcall
    simp only [List.zip_nil_left, renameEntries, Option.some.injEq] at hcall
    subst hcall
    exact ⟨hc, hw⟩
  | cons o os ih =>
    intro news f r hc hw holds hnews hcall
    cases news with
    | nil =>
      unfold keaFileLayerNamesSet at hcall
      simp only [List.zip_nil_right, renameEntries, Option.some.injEq] at hcall
      subst hcall
      exact ⟨hc, hw⟩
    | cons n ns =>
      rw [namesSet_cons] at hcall
      cases hs : keaFileLayerNamesSet f [o] [n] with
      | none => simp [hs] at hcall
      | some r1 =>
        obtain ⟨rc, f1⟩ := r1
        simp only [hs] at hcall
        obtain ⟨_, hls, hw1, _⟩ := namesSet_single_spec hs
        have hc1 : NamesConsistent f1.aLayers := by
          rw [hls]
          exact rename_consistent _ o n f.aLayers hw (holds o (List.mem_cons_self _ _))
            (hnews n (List.mem_cons_self _ _)) hc
        have hwf1 : ∀ b s, writable f1.pImageIO b s = true := by
          intro b s
          rw [hw1]
          exact hw b s
        exact ih ns f1 r hc1 hwf1 (fun o' ho' => holds o' (List.mem_cons_of_mem _ ho'))
          (fun n' hn' => hnews n' (List.mem_cons_of_mem _ hn')) hcall

theorem reachable_consistent (io : KEAImageIO) (f : KEA_File)
    (hcolon : ∀ b ∈ supportedBands io, ':' ∉ bandName io b)
    (hw : ∀ b s, io.descriptionWritable b s = true) (h : ReachableNoColon io f) :
    NamesConsistent f.aLayers ∧ ∀ b s, writable f.pImageIO b s = true := by
  induction h with
  | opened env fileName fileType mode f hmode hcont hopen =>
    obtain ⟨io', hio', _, hfio, hcat⟩ := open_some_inv hmode hopen
    rw [hcont] at hio'
    cases hio'
    rw [hcat, hfio]
    exact ⟨catalog_consistent hcolon, hw⟩
  | renamed f olds news rc f' _ _ holds hnews hcall ih =>
    exact batch_consistent olds news f (rc, f') ih.1 ih.2 holds hnews hcall

/-- Claim C22. When the band names of the container hold no colon and every container
update succeeds, then in every session reached from open by calls of
`keaFileLayerNamesSet` whose old and new names hold no colon, each Mask, Overview and
OverviewMask descriptor has a Real descriptor of its band index in the catalog, and its
name is the current name of any such Real descriptor followed by its role suffix
(`:Mask`, `:Overview_k` or `:Overview_k:Mask` for its level `k`). -/
theorem names_consistent_invariant (io : KEAImageIO) (f : KEA_File)
    (hcolon : ∀ b ∈ supportedBands io, ':' ∉ bandName io b)
    (hw : ∀ b s, io.descriptionWritable b s = true) (h : ReachableNoColon io f)
    (L : KEA_Layer) (hL : L ∈ f.aLayers) (hLdep : isTopLevel L = false) :
    (∃ R ∈ f.aLayers, isTopLevel R = true ∧ R.nBand = L.nBand) ∧
    ∀ R ∈ f.aLayers, isTopLevel R = true → R.nBand = L.nBand →
      L.sName = R.sName ++ roleSuffix L.role L.nOverview := by
  obtain ⟨⟨_, hB⟩, _⟩ := reachable_consistent io f hcolon hw h
  obtain ⟨hex, base, _, hname, hall⟩ := hB L hL hLdep
  refine ⟨hex, fun R hR hRtop hRb => ?_⟩
  rw [hall R hR hRtop hRb]
  exact hname

/-- Witness of claim C22: after `Band_1` is renamed to `B` in the session of `sampleIO`,
the Mask descriptor of band 1 is named `B` followed by `:Mask`. -/
theorem names_consistent_invariant_witness :
    renamedReal.sName = "B".toList ∧
    renamedMask.sName
      = renamedReal.sName ++ roleSuffix renamedMask.role renamedMask.nOverview :=
  ⟨rfl, (names_consistent_invariant sampleIO
      (afterRename sampleSession "Band_1".toList "B".toList) (by decide) (fun _ _ => rfl)
      (ReachableNoColon.renamed sampleSession ["Band_1".toList] ["B".toList] 0 _
        (ReachableNoColon.opened (envOf sampleIO) "a.kea".toList 1 FileMode.readOnly
          sampleSession rfl rfl rfl) rfl (by decide) (by decide) rfl)
      renamedMask (by decide) rfl).2 renamedReal (by decide) rfl rfl⟩

end KEA
